import Mathlib

/-!
Verification development for the streaming Electrum wallet-sync core
(`bdk-electrum-streaming-poc`).  The Rust sources are shallowly embedded:

* `src/streaming/domain/spk_tracker.rs`  → `Tracker` and its operations;
* `src/streaming/engine/*`               → `EngineState`, `onConnected`,
  `onScriptHashChanged`, `onScriptHashHistory`;
* `src/streaming/runtime/orchestrator.rs` → `wakeStep`, `applyTransactionsCmd`;
* `src/streaming/electrum/asynchronous/adapter.rs` → `AdapterState`,
  `processResponse`, `flushOutgoing`, `fetchHistoryTxs`, hex encoding.

Script pubkeys, scripthashes, transactions and block headers are abstracted
to `Nat`-valued codes; descriptor derivation and SHA-256 hashing are
abstracted to explicit function parameters (`DeriveCtx`), since their
internals are irrelevant to the verified control logic.  `BTreeMap`s are
modelled as association lists kept sorted by key, `HashMap`s/`HashSet`s as
association lists with replace-on-insert (iteration order of a `HashMap`
never matters below).  Rust panics (`unwrap`/`expect`) are modelled with
`Option` where a claim depends on them.
-/

namespace BdkStream

/-- Keychain identifier (the Rust code is generic over `K : Ord + Clone`;
keychains like "external"/"internal" are numbered here). -/
abbrev KC := Nat

/-- Abstract script pubkey (`ScriptBuf` contents). -/
abbrev Spk := Nat

/-- Abstract 32-byte SHA-256 value (`sha256::Hash`), natural byte order. -/
abbrev HashV := Nat

/-- Abstract transaction; `code` stands for the raw transaction, and
`computeTxid` below stands for `Transaction::compute_txid`. -/
structure Tx where
  code : Nat
deriving DecidableEq, Repr

def computeTxid (t : Tx) : Nat := t.code

/-- `HistoryTx` from `engine/types.rs`: a transaction paired with the
confirmation height reported by `get_history` (`> 0` confirmed, `<= 0`
mempool). -/
structure HistoryTx where
  tx : Tx
  height : Int
deriving DecidableEq, Repr

/-- Abstract descriptor (`Descriptor<DescriptorPublicKey>`); structural
equality of descriptors is equality of codes. -/
structure Descr where
  code : Nat
deriving DecidableEq, Repr

/-- The two functions the tracker composes but does not define: descriptor
derivation (`descriptor.at_derivation_index(i).script_pubkey()`) and
SHA-256 of the script bytes (`sha256::Hash::hash(spk.as_bytes())`). -/
structure DeriveCtx where
  derive : Descr → Nat → Spk
  hashFn : Spk → HashV

def DeriveCtx.hspk (ctx : DeriveCtx) (d : Descr) (i : Nat) : HashV :=
  ctx.hashFn (ctx.derive d i)

/-! ### Association-list maps

`alookup`/`ainsertReplace`/`aerase` model `HashMap::get/insert/remove`
(and `BTreeMap` lookup/insert where order is irrelevant); `insertSorted`
models `BTreeMap` insertion preserving ascending key order, which fixes
the iteration order of `all_spks()`. -/

def alookup {α β : Type} [DecidableEq α] : List (α × β) → α → Option β
  | [], _ => none
  | (a, b) :: t, k => if a = k then some b else alookup t k

def ainsertReplace {α β : Type} [DecidableEq α] : List (α × β) → α → β → List (α × β)
  | [], k, v => [(k, v)]
  | (a, b) :: t, k, v => if a = k then (k, v) :: t else (a, b) :: ainsertReplace t k v

def aerase {α β : Type} [DecidableEq α] : List (α × β) → α → List (α × β)
  | [], _ => []
  | (a, b) :: t, k => if a = k then t else (a, b) :: aerase t k

/-- Strict lexicographic-or-equal order on `(keychain, index)` keys,
matching the `Ord` instance `BTreeMap<(K, u32), _>` sorts by. -/
def keyLe (a b : KC × Nat) : Bool :=
  a.1 < b.1 || (a.1 = b.1 && a.2 ≤ b.2)

def insertSorted {β : Type} (k : KC × Nat) (v : β) :
    List ((KC × Nat) × β) → List ((KC × Nat) × β)
  | [] => [(k, v)]
  | (a, b) :: t =>
    if keyLe k a then (k, v) :: (a, b) :: t else (a, b) :: insertSorted k v t

/-! ### Derivation tracker (`DerivedSpkTracker`) -/

/-- `DerivedSpkTracker<K>` from `domain/spk_tracker.rs`. -/
structure Tracker where
  lookahead : Nat
  /-- `descriptors : BTreeMap<K, Descriptor>` (only looked up by key). -/
  descriptors : List (KC × Descr)
  /-- `derived_spks : BTreeMap<(K, u32), (sha256::Hash, ScriptBuf)>`,
  kept in ascending key order. -/
  derivedSpks : List ((KC × Nat) × (HashV × Spk))
  /-- `derived_spks_rev : HashMap<sha256::Hash, (K, u32)>`. -/
  derivedSpksRev : List (HashV × (KC × Nat))
deriving DecidableEq, Repr

namespace Tracker

/-- `DerivedSpkTracker::new(lookahead)`. -/
def new (lookahead : Nat) : Tracker :=
  { lookahead := lookahead, descriptors := [], derivedSpks := [], derivedSpksRev := [] }

/-- `all_spks()`: the `(scripthash, spk)` values in `(keychain, index)`
ascending order. -/
def allSpks (t : Tracker) : List (HashV × Spk) :=
  t.derivedSpks.map (·.2)

/-- `index_of_spk_hash`. -/
def indexOfSpkHash (t : Tracker) (h : HashV) : Option (KC × Nat) :=
  alookup t.derivedSpksRev h

/-- `add_derived_spk`: derive and store one script if its `(keychain, index)`
slot is vacant.  The `expect("descriptor exists")` panic (no descriptor for
the keychain) is modelled as returning `none` without change. -/
def addDerivedSpk (ctx : DeriveCtx) (t : Tracker) (k : KC) (i : Nat) :
    Tracker × Option (HashV × Spk) :=
  match alookup t.derivedSpks (k, i) with
  | some _ => (t, none)
  | none =>
    match alookup t.descriptors k with
    | none => (t, none)
    | some d =>
      let spk := ctx.derive d i
      let h := ctx.hashFn spk
      ({ t with
          derivedSpks := insertSorted (k, i) (h, spk) t.derivedSpks,
          derivedSpksRev := ainsertReplace t.derivedSpksRev h (k, i) },
        some (h, spk))

/-- `clear_keychain`: drop all forward entries of a keychain and remove each
of their hashes from the reverse map. -/
def clearKeychain (t : Tracker) (k : KC) : Tracker :=
  let removed := t.derivedSpks.filter (fun e => e.1.1 = k)
  { t with
      derivedSpks := t.derivedSpks.filter (fun e => ¬ e.1.1 = k),
      derivedSpksRev := removed.foldl (fun r e => aerase r e.2.1) t.derivedSpksRev }

/-- The `(0..=next_index + lookahead).filter_map(add_derived_spk)` loop of
`insert_descriptor`: derive every index of the list, collecting the newly
added pairs (indices already present are skipped, not a stop). -/
def deriveRangeLoop (ctx : DeriveCtx) (t : Tracker) (k : KC) :
    List Nat → Tracker × List (HashV × Spk)
  | [] => (t, [])
  | i :: rest =>
    let step := addDerivedSpk ctx t k i
    let r := deriveRangeLoop ctx step.1 k rest
    (r.1, match step.2 with
          | some p => p :: r.2
          | none => r.2)

/-- `insert_descriptor(keychain, descriptor, next_index)`. -/
def insertDescriptor (ctx : DeriveCtx) (t : Tracker) (k : KC) (d : Descr)
    (next : Nat) : Tracker × List (HashV × Spk) :=
  let old := alookup t.descriptors k
  let t1 := { t with descriptors := ainsertReplace t.descriptors k d }
  match old with
  | some od =>
    if od = d then (t1, [])
    else
      deriveRangeLoop ctx (clearKeychain t1 k) k (List.range (next + t.lookahead + 1))
  | none =>
    deriveRangeLoop ctx t1 k (List.range (next + t.lookahead + 1))

/-- The `for i in next_index..=next_index + lookahead` loop of
`mark_used_and_derive_new`: derive ascending, **stopping at the first index
already present**. -/
def markUsedLoop (ctx : DeriveCtx) (t : Tracker) (k : KC) :
    List Nat → Tracker × List (HashV × Spk)
  | [] => (t, [])
  | i :: rest =>
    let step := addDerivedSpk ctx t k i
    match step.2 with
    | some p =>
      let r := markUsedLoop ctx step.1 k rest
      (r.1, p :: r.2)
    | none => (step.1, [])

/-- `mark_used_and_derive_new(keychain, index)`: walk the window
`[index + 1, index + 1 + lookahead]`. -/
def markUsedAndDeriveNew (ctx : DeriveCtx) (t : Tracker) (k : KC) (index : Nat) :
    Tracker × List (HashV × Spk) :=
  markUsedLoop ctx t k (List.range' (index + 1) (t.lookahead + 1))

end Tracker

/-! ### Sync engine (`engine/state.rs`, `engine/types.rs`, `engine/logic.rs`)

The timing fields (`start_time`, `first_history_seen_at`, `first_tx_seen_at`)
are recorded for observability only and never influence behaviour; they are
omitted. -/

inductive EngineEvent where
  | connected
  | scriptHashChanged (hash : HashV)
  | scriptHashHistory (hash : HashV) (txs : List HistoryTx)
deriving DecidableEq, Repr

inductive EngineCommand where
  | subscribe (hash : HashV)
  | fetchHistory (hash : HashV)
  | applyTransactions (script : Spk) (txs : List HistoryTx)
deriving DecidableEq, Repr

/-- `EngineState<K>` from `engine/state.rs`. -/
structure EngineState where
  spkTracker : Tracker
  /-- `spk_index_by_hash : HashMap<sha256::Hash, (K, u32)>`. -/
  spkIndexByHash : List (HashV × (KC × Nat))
  /-- `script_by_hash : HashMap<sha256::Hash, ScriptBuf>`. -/
  scriptByHash : List (HashV × Spk)
  /-- `subscribed : BTreeSet<sha256::Hash>` (membership only matters). -/
  subscribed : List HashV
  /-- `histories : HashMap<sha256::Hash, Vec<Txid>>`. -/
  histories : List (HashV × List Nat)
  connected : Bool
deriving DecidableEq, Repr

namespace EngineState

/-- `SyncEngine::new`. -/
def new (tracker : Tracker) : EngineState :=
  { spkTracker := tracker, spkIndexByHash := [], scriptByHash := [],
    subscribed := [], histories := [], connected := false }

end EngineState

/-- The body of the `for (hash, script) in state.spk_tracker.all_spks()`
loop of `on_connected`, folded over the (already enumerated) pair list. -/
def onConnectedLoop (tr : Tracker) (s : EngineState) :
    List (HashV × Spk) → EngineState × List EngineCommand
  | [] => (s, [])
  | (h, spk) :: rest =>
    let s1 :=
      match tr.indexOfSpkHash h with
      | some ki =>
        { s with
            spkIndexByHash := ainsertReplace s.spkIndexByHash h ki,
            scriptByHash := ainsertReplace s.scriptByHash h spk }
      | none => s
    let step :=
      if h ∈ s1.subscribed then (s1, ([] : List EngineCommand))
      else ({ s1 with subscribed := h :: s1.subscribed },
            [EngineCommand.fetchHistory h, EngineCommand.subscribe h])
    let r := onConnectedLoop tr step.1 rest
    (r.1, step.2 ++ r.2)

/-- `on_connected` (`engine/logic.rs`). -/
def onConnected (s : EngineState) : EngineState × List EngineCommand :=
  onConnectedLoop s.spkTracker { s with connected := true } s.spkTracker.allSpks

/-- `on_scripthash_changed`. -/
def onScriptHashChanged (s : EngineState) (h : HashV) :
    EngineState × List EngineCommand :=
  (s, [EngineCommand.fetchHistory h])

/-- The `for (new_hash, new_script) in newly` loop of
`on_scripthash_history`: note the source inserts `(keychain, index + 1)`
into `spk_index_by_hash` for **every** newly derived hash. -/
def newlyLoop (kc : KC) (index : Nat) (s : EngineState) :
    List (HashV × Spk) → EngineState × List EngineCommand
  | [] => (s, [])
  | (nh, nspk) :: rest =>
    let s1 :=
      { s with
          spkIndexByHash := ainsertReplace s.spkIndexByHash nh (kc, index + 1),
          scriptByHash := ainsertReplace s.scriptByHash nh nspk }
    let step :=
      if nh ∈ s1.subscribed then (s1, ([] : List EngineCommand))
      else ({ s1 with subscribed := nh :: s1.subscribed },
            [EngineCommand.fetchHistory nh, EngineCommand.subscribe nh])
    let r := newlyLoop kc index step.1 rest
    (r.1, step.2 ++ r.2)

/-- Everything `on_scripthash_history` does before its final
`script_by_hash.get(&hash).cloned().unwrap()`. -/
def historyCore (ctx : DeriveCtx) (s : EngineState) (h : HashV)
    (txs : List HistoryTx) : EngineState × List EngineCommand :=
  let prev := alookup s.histories h
  let wasEmpty := (prev.getD []).isEmpty
  let isEmpty := txs.isEmpty
  let txids := txs.map (fun ht => computeTxid ht.tx)
  let s1 := { s with histories := ainsertReplace s.histories h txids }
  if wasEmpty && !isEmpty then
    match alookup s1.spkIndexByHash h with
    | some (kc, index) =>
      let m := s1.spkTracker.markUsedAndDeriveNew ctx kc index
      newlyLoop kc index { s1 with spkTracker := m.1 } m.2
    | none => (s1, [])
  else (s1, [])

/-- `on_scripthash_history` (`engine/logic.rs`).  The final
`.unwrap()` on `script_by_hash.get(&hash)` panics when the hash was never
recorded; the panic is modelled as `none`. -/
def onScriptHashHistory (ctx : DeriveCtx) (s : EngineState) (h : HashV)
    (txs : List HistoryTx) : Option (EngineState × List EngineCommand) :=
  let core := historyCore ctx s h txs
  match alookup core.1.scriptByHash h with
  | some script =>
    some (core.1, core.2 ++ [EngineCommand.applyTransactions script txs])
  | none => none

/-- `SyncEngine::handle_event` (`engine/mod.rs`). -/
def handleEvent (ctx : DeriveCtx) (s : EngineState) :
    EngineEvent → Option (EngineState × List EngineCommand)
  | .connected => some (onConnected s)
  | .scriptHashChanged h => some (onScriptHashChanged s h)
  | .scriptHashHistory h txs => onScriptHashHistory ctx s h txs

/-- Feed a sequence of events, stopping at the first panic. -/
def runEvents (ctx : DeriveCtx) (s : EngineState) :
    List EngineEvent → Option EngineState
  | [] => some s
  | ev :: rest =>
    match handleEvent ctx s ev with
    | some (s', _) => runEvents ctx s' rest
    | none => none

/-! ### Orchestrator (`runtime/orchestrator.rs`)

Only the decision structure of `run_forever`'s loop body and of
`execute_command`'s `ApplyTransactions` arm is modelled; lock acquisition
and logging are side effects without data content. -/

/-- What one wake of the `run_forever` loop does after
`poll_scripthash_changed` yielded `hash`, given the result of
`fetch_history_txs(hash)`.  `pending` is `pending_initial_syncs`;
`bootstrap` is whether `on_initial_sync` is still registered. -/
structure WakeResult where
  /-- Events fed to the engine on this wake. -/
  events : List EngineEvent
  /-- `request_history` calls issued on the adapter on this wake. -/
  requests : List HashV
  /-- `pending_initial_syncs` afterwards. -/
  pending : List HashV
  /-- Whether the bootstrap callback is still registered afterwards
  (`check_initial_sync_complete` consumes it once `pending` drains). -/
  bootstrap : Bool
deriving DecidableEq, Repr

/-- The `match self.client.fetch_history_txs(hash)` body of `run_forever`. -/
def wakeStep (hash : HashV) (fetch : Option (List HistoryTx))
    (pending : List HashV) (bootstrap : Bool) : WakeResult :=
  match fetch with
  | some txs =>
    let pending' := pending.erase hash
    { events := [EngineEvent.scriptHashHistory hash txs],
      requests := [],
      pending := pending',
      bootstrap := bootstrap && !pending'.isEmpty }
  | none =>
    if hash ∈ pending then
      { events := [], requests := [], pending := pending, bootstrap := bootstrap }
    else
      { events := [], requests := [hash], pending := pending, bootstrap := bootstrap }

/-- `bdk_wallet::Update` as the orchestrator populates it: the
`tx_update.txs` list plus the `tx_update.anchors` set pairing confirmation
heights with transactions (left untouched by the source). -/
structure WalletUpdate where
  txs : List Tx
  anchors : List (Nat × Tx)
deriving DecidableEq, Repr

/-- The `EngineCommand::ApplyTransactions { script, txs }` arm of
`execute_command`: `none` means the early return on empty `txs` (the
wallet lock is never taken); otherwise the update handed to
`wallet.apply_update`.  The source pushes each transaction into
`update.tx_update.txs` and never writes `anchors` nor consults
`get_cached_header`, so the heights carried by `txs` are dropped. -/
def applyTransactionsCmd (txs : List HistoryTx) : Option WalletUpdate :=
  if txs.isEmpty then none
  else some { txs := txs.map (·.tx), anchors := [] }

/-! ### Protocol adapter (`electrum/asynchronous/adapter.rs`)

JSON parsing is abstracted: a server line is either a subscribe
notification or a typed response `(id, payload)`; `process_message`'s
dispatch on `inflight_requests` and all counter/cache bookkeeping are
modelled exactly.  Hex transaction/header decoding always succeeds here
(decode failures abort `process_message` by `?` in the source). -/

/-- One entry of a `blockchain.scripthash.get_history` result. -/
structure HistEntry where
  txid : Nat
  height : Int
deriving DecidableEq, Repr

/-- `RequestType`. -/
inductive RequestType where
  | history (hash : HashV)
  | transaction (relatedHash : HashV) (height : Int)
  | blockHeader (height : Nat) (relatedHash : HashV)
deriving DecidableEq, Repr

/-- `InternalCommand`. -/
inductive InternalCommand where
  | subscribe (hash : HashV) (script : Spk)
  | fetchHistory (hash : HashV)
  | fetchTransaction (txid : Nat) (relatedHash : HashV) (height : Int)
  | fetchBlockHeader (height : Nat) (relatedHash : HashV)
deriving DecidableEq, Repr

/-- The payload of a well-formed server response, after JSON decoding. -/
inductive RespPayload where
  | historyResult (entries : List HistEntry)
  | txResult (tx : Tx)
  | headerResult (header : Nat)
deriving DecidableEq, Repr

/-- `SharedState` (block headers abstracted to `Nat`). -/
structure AdapterState where
  ready : List HashV
  historyCache : List (HashV × List HistoryTx)
  blockHeaderCache : List (Nat × Nat)
  commandQueue : List InternalCommand
  inflightRequests : List (Nat × RequestType)
  remainingTxs : List (HashV × Nat)
  remainingHeaders : List (HashV × Nat)
  headersInFlight : List Nat
deriving DecidableEq, Repr

namespace AdapterState

def empty : AdapterState :=
  { ready := [], historyCache := [], blockHeaderCache := [],
    commandQueue := [], inflightRequests := [],
    remainingTxs := [], remainingHeaders := [], headersInFlight := [] }

/-- `SharedState::check_history_complete`. -/
def checkHistoryComplete (s : AdapterState) (hash : HashV) : AdapterState :=
  let txsDone := (alookup s.remainingTxs hash).getD 0 = 0
  let hdrsDone := (alookup s.remainingHeaders hash).getD 0 = 0
  if txsDone ∧ hdrsDone then
    { s with
        remainingTxs := aerase s.remainingTxs hash,
        remainingHeaders := aerase s.remainingHeaders hash,
        ready := s.ready ++ [hash] }
  else s

/-- `ElectrumApi::request_history` (queues a `FetchHistory` command). -/
def requestHistory (s : AdapterState) (hash : HashV) : AdapterState :=
  { s with commandQueue := s.commandQueue ++ [InternalCommand.fetchHistory hash] }

/-- `ElectrumApi::fetch_history_txs`: destructive cache read. -/
def fetchHistoryTxs (s : AdapterState) (hash : HashV) :
    Option (List HistoryTx) × AdapterState :=
  (alookup s.historyCache hash,
   { s with historyCache := aerase s.historyCache hash })

/-- `ElectrumApi::poll_scripthash_changed`. -/
def pollScriptHashChanged (s : AdapterState) : Option HashV × AdapterState :=
  match s.ready with
  | [] => (none, s)
  | h :: rest => (some h, { s with ready := rest })

end AdapterState

/-- The per-entry bookkeeping of the `for item in arr` loop of the
`RequestType::History` branch: queue a `FetchTransaction` for every entry
and collect the set of unique confirmed heights that are neither cached
nor in flight (`needed_heights` is a `HashSet`, modelled as a
first-occurrence deduplicated list). -/
def historyEntriesLoop (s : AdapterState) (hash : HashV) :
    List HistEntry → AdapterState × List Nat
  | [] => (s, [])
  | e :: rest =>
    let s1 := { s with
      commandQueue := s.commandQueue ++
        [InternalCommand.fetchTransaction e.txid hash e.height] }
    let r := historyEntriesLoop s1 hash rest
    if e.height > 0 then
      let h := e.height.toNat
      if (alookup s.blockHeaderCache h).isNone ∧ h ∉ s.headersInFlight ∧ h ∉ r.2
      then (r.1, h :: r.2) else r
    else r

/-- `process_message` on a response line carrying an id, dispatched via
`inflight_requests` (a response with an unknown id is ignored). -/
def processResponse (s : AdapterState) (id : Nat) (payload : RespPayload) :
    AdapterState :=
  let req := alookup s.inflightRequests id
  let s := { s with inflightRequests := aerase s.inflightRequests id }
  match req with
  | none => s
  | some (RequestType.history hash) =>
    match payload with
    | RespPayload.historyResult entries =>
      let s := { s with remainingTxs := ainsertReplace s.remainingTxs hash entries.length }
      if entries.isEmpty then
        let s := { s with
          historyCache := ainsertReplace s.historyCache hash [],
          remainingHeaders := ainsertReplace s.remainingHeaders hash 0 }
        s.checkHistoryComplete hash
      else
        let r := historyEntriesLoop s hash entries
        { r.1 with
            remainingHeaders := ainsertReplace r.1.remainingHeaders hash r.2.length,
            headersInFlight := r.2 ++ r.1.headersInFlight,
            commandQueue := r.1.commandQueue ++
              r.2.map (fun h => InternalCommand.fetchBlockHeader h hash) }
    | _ => s
  | some (RequestType.transaction relatedHash height) =>
    match payload with
    | RespPayload.txResult tx =>
      let s := { s with
        historyCache := ainsertReplace s.historyCache relatedHash
          ((alookup s.historyCache relatedHash).getD [] ++ [{ tx := tx, height := height }]) }
      match alookup s.remainingTxs relatedHash with
      | none => s
      | some rem =>
        let s := { s with remainingTxs := ainsertReplace s.remainingTxs relatedHash (rem - 1) }
        if rem - 1 = 0 then s.checkHistoryComplete relatedHash else s
    | _ => s
  | some (RequestType.blockHeader height relatedHash) =>
    match payload with
    | RespPayload.headerResult header =>
      let s := { s with
        blockHeaderCache := ainsertReplace s.blockHeaderCache height header,
        headersInFlight := s.headersInFlight.erase height }
      let s :=
        match alookup s.remainingHeaders relatedHash with
        | none => s
        | some rem =>
          { s with remainingHeaders := ainsertReplace s.remainingHeaders relatedHash (rem - 1) }
      let txsDone := (alookup s.remainingTxs relatedHash).getD 0 = 0
      let hdrsDone := (alookup s.remainingHeaders relatedHash).getD 0 = 0
      if txsDone ∧ hdrsDone then s.checkHistoryComplete relatedHash else s
    | _ => s

/-- `process_message` on a `blockchain.scripthash.subscribe` push
notification (no id): enqueue the parsed scripthash on `ready`. -/
def processNotification (s : AdapterState) (hash : HashV) : AdapterState :=
  { s with ready := s.ready ++ [hash] }

/-- The writer's `flush_outgoing`: drain the command queue in order,
giving each request a fresh monotonic id (`NEXT_ID`) and recording it in
`inflight_requests` (subscribe responses are never tracked). -/
def flushOutgoing (s : AdapterState) (nextId : Nat) : AdapterState × Nat :=
  let rec go (cmds : List InternalCommand)
      (infl : List (Nat × RequestType)) (n : Nat) :
      List (Nat × RequestType) × Nat :=
    match cmds with
    | [] => (infl, n)
    | InternalCommand.subscribe _ _ :: rest => go rest infl (n + 1)
    | InternalCommand.fetchHistory h :: rest =>
      go rest (infl ++ [(n, RequestType.history h)]) (n + 1)
    | InternalCommand.fetchTransaction _ rh ht :: rest =>
      go rest (infl ++ [(n, RequestType.transaction rh ht)]) (n + 1)
    | InternalCommand.fetchBlockHeader ht rh :: rest =>
      go rest (infl ++ [(n, RequestType.blockHeader ht rh)]) (n + 1)
  match go s.commandQueue s.inflightRequests nextId with
  | (infl, n) => ({ s with commandQueue := [], inflightRequests := infl }, n)

/-! ### Scripthash wire encoding

`electrum_scripthash` and the notification parsing of `process_message`,
over byte lists (`List Nat`, each `< 256`) and ASCII character-code lists
for hex strings, mirroring the `hex` crate (`encode` emits lowercase,
`decode` accepts both cases and requires even length). -/

/-- Lowercase hex digit for a value `< 16` (ASCII code). -/
def natToHexDigit (n : Nat) : Nat :=
  if n < 10 then 48 + n else 87 + n

/-- `hex::encode`: two lowercase digits per byte. -/
def hexEncode (bs : List Nat) : List Nat :=
  bs.flatMap (fun b => [natToHexDigit (b / 16), natToHexDigit (b % 16)])

/-- Value of one hex digit, accepting `0-9`, `a-f` and `A-F`
(as `hex::decode` does). -/
def hexDigitVal (c : Nat) : Option Nat :=
  if 48 ≤ c ∧ c ≤ 57 then some (c - 48)
  else if 97 ≤ c ∧ c ≤ 102 then some (c - 87)
  else if 65 ≤ c ∧ c ≤ 70 then some (c - 55)
  else none

/-- `hex::decode`: pairs of digits to bytes; odd length or an invalid
character fails. -/
def hexDecode : List Nat → Option (List Nat)
  | [] => some []
  | [_] => none
  | c1 :: c2 :: rest =>
    match hexDigitVal c1, hexDigitVal c2, hexDecode rest with
    | some h, some l, some bs => some ((16 * h + l) :: bs)
    | _, _, _ => none

/-- `electrum_scripthash` applied to an already-hashed script: hex of the
byte-reversed 32-byte SHA-256 (the SHA-256 computation itself is the
`hashFn` abstraction). -/
def encodeScripthashHex (hashBytes : List Nat) : List Nat :=
  hexEncode hashBytes.reverse

/-- Notification scripthash parsing in `process_message`: hex-decode,
byte-reverse, and `sha256::Hash::from_slice` (which requires exactly 32
bytes). -/
def parseNotificationHash (s : List Nat) : Option (List Nat) :=
  match hexDecode s with
  | some bs => if bs.length = 32 then some bs.reverse else none
  | none => none

/-- A character code for which `hex::decode` and `hex::encode` agree:
a lowercase hex digit. -/
def isLowerHexDigit (c : Nat) : Bool :=
  (48 ≤ c && c ≤ 57) || (97 ≤ c && c ≤ 102)

/-! ### Specification-side notions -/

/-- The hashes of `on Connected` that get fresh commands, as the spec
describes them: the scripthashes of `all_spks()` in order, first
occurrences only, skipping those already in the subscription set `sub`. -/
def newOnce (sub : List HashV) : List HashV → List HashV
  | [] => []
  | h :: t => if h ∈ sub then newOnce sub t else h :: newOnce (h :: sub) t

/-- The spec's reverse-lookup consistency property: every forward entry's
hash reverse-looks-up to its own `(keychain, index)`, every reverse entry
has a matching forward entry, and the two maps have the same cardinality. -/
def RevOk (t : Tracker) : Prop :=
  (∀ e ∈ t.derivedSpks, t.indexOfSpkHash e.2.1 = some e.1) ∧
  (∀ e ∈ t.derivedSpksRev, ∃ spk, alookup t.derivedSpks e.2 = some (e.1, spk)) ∧
  t.derivedSpks.length = t.derivedSpksRev.length

/-- Executable check of `RevOk` on a concrete tracker. -/
def revOkB (t : Tracker) : Bool :=
  t.derivedSpks.all (fun e => decide (t.indexOfSpkHash e.2.1 = some e.1)) &&
  t.derivedSpksRev.all (fun e =>
    match alookup t.derivedSpks e.2 with
    | some p => decide (p.1 = e.1)
    | none => false) &&
  decide (t.derivedSpks.length = t.derivedSpksRev.length)

/-- The tracker well-formedness invariant carried through the reachability
argument: duplicate-free keys, every forward entry derived from its
keychain's current descriptor, injective descriptor assignment, and the
two maps mutually inverse. -/
structure TInv (ctx : DeriveCtx) (t : Tracker) : Prop where
  fwdNodup : (t.derivedSpks.map (·.1)).Nodup
  revNodup : (t.derivedSpksRev.map (·.1)).Nodup
  descInjA : ∀ k1 k2 d, alookup t.descriptors k1 = some d →
    alookup t.descriptors k2 = some d → k1 = k2
  fwdSrc : ∀ e ∈ t.derivedSpks, ∃ d, alookup t.descriptors e.1.1 = some d ∧
    e.2.2 = ctx.derive d e.1.2 ∧ e.2.1 = ctx.hashFn e.2.2
  fwdRev : ∀ e ∈ t.derivedSpks, alookup t.derivedSpksRev e.2.1 = some e.1
  revFwd : ∀ e ∈ t.derivedSpksRev, ∃ spk, alookup t.derivedSpks e.2 = some (e.1, spk)

/-- The scripthashes currently held for keychain `k` (used to state what
descriptor replacement must purge). -/
def Tracker.hashesOf (t : Tracker) (k : KC) : List HashV :=
  (t.derivedSpks.filter (fun e => e.1.1 = k)).map (·.2.1)

/-- The `(scripthash, spk)` pairs a descriptor yields on `0, …, n - 1`. -/
def rangePairs (ctx : DeriveCtx) (d : Descr) (n : Nat) : List (HashV × Spk) :=
  (List.range n).map (fun i => (ctx.hspk d i, ctx.derive d i))

/-! ### Concrete instances -/

/-- A simple concrete derivation context for counterexample runs: scripts
are `descriptor-code * 100 + index`, hashing is the identity (so hashing
is collision-free; the counterexamples below do not rely on hash
collisions). -/
def ctxLin : DeriveCtx :=
  { derive := fun d i => d.code * 100 + i, hashFn := fun s => s }

/-- A derivation context whose composite `(descriptor, index) ↦ scripthash`
map is provably injective (used to discharge injectivity hypotheses). -/
def ctxPair : DeriveCtx :=
  { derive := fun d i => Nat.pair d.code i, hashFn := fun s => s }

/-- C1 run: lookahead 1, one descriptor inserted at next index 0, so the
tracker holds indices 0 and 1 (scripthashes 700 and 701; index `i` of
descriptor 7 hashes to `700 + i`). -/
def c1Tracker : Tracker :=
  (Tracker.insertDescriptor ctxLin (Tracker.new 1) 0 ⟨7⟩ 0).1

/-- C1 run: connect, then the scripthash of index 1 reports a non-empty
history (deriving indices 2 and 3), then the scripthash of index 3
reports a non-empty history. -/
def c1Final : Option EngineState :=
  runEvents ctxLin (EngineState.new c1Tracker)
    [EngineEvent.connected,
     EngineEvent.scriptHashHistory 701 [⟨⟨1⟩, 5⟩],
     EngineEvent.scriptHashHistory 703 [⟨⟨2⟩, 6⟩]]

/-- C6 input: lookahead 2, descriptor inserted at next index 0, so the
tracker holds exactly indices 0, 1 and 2. -/
def c6Tracker : Tracker :=
  (Tracker.insertDescriptor ctxLin (Tracker.new 2) 0 ⟨7⟩ 0).1

/-- C8 input: lookahead 0 and the same descriptor inserted for two
different keychains — a reachable state in which both keychains derive
the same script, hence the same scripthash. -/
def c8Tracker : Tracker :=
  (Tracker.insertDescriptor ctxLin
    (Tracker.insertDescriptor ctxLin (Tracker.new 0) 0 ⟨7⟩ 0).1 1 ⟨7⟩ 0).1

/-- C4 run, step 1: two history requests queued and flushed
(request ids 1 and 2). -/
def c4Flushed : AdapterState × Nat :=
  flushOutgoing ((AdapterState.empty.requestHistory 100).requestHistory 200) 1

/-- C4 run, step 2: the history response for scripthash 100 arrives first:
one transaction (txid 11) confirmed at height 500.  Height 500 becomes
in-flight, counted for scripthash 100. -/
def c4S2 : AdapterState :=
  processResponse c4Flushed.1 1 (RespPayload.historyResult [⟨11, 500⟩])

/-- C4 run, step 3: the history response for scripthash 200: one
transaction (txid 22) confirmed at the same height 500.  The height is
already in flight for scripthash 100, so scripthash 200's remaining
header count is set to 0. -/
def c4S3 : AdapterState :=
  processResponse c4S2 2 (RespPayload.historyResult [⟨22, 500⟩])

/-- C4 run, step 4: flush the queued follow-up requests
(ids 3: tx 11, 4: header 500, 5: tx 22). -/
def c4S4 : AdapterState :=
  (flushOutgoing c4S3 c4Flushed.2).1

/-- C4 run, step 5: the transaction response for scripthash 200 (id 5)
arrives before the header response for height 500 (id 4): both of
scripthash 200's counters are zero, so it is enqueued on `ready` —
while height 500's header is still not cached. -/
def c4S5 : AdapterState :=
  processResponse c4S4 5 (RespPayload.txResult ⟨22⟩)

/-- C5 witness input: lookahead 0, keychain 0 holding descriptor 7
(one derived entry, scripthash 700). -/
def c5Tracker : Tracker :=
  (Tracker.insertDescriptor ctxLin (Tracker.new 0) 0 ⟨7⟩ 0).1

/-- C4 witness state: one in-flight history request (id 1) for
scripthash 9. -/
def c4WState : AdapterState :=
  { AdapterState.empty with inflightRequests := [(1, RequestType.history 9)] }

/-- C10 witness state: the engine right after `Connected` on the C1
tracker, so `script_by_hash` holds scripthashes 700 and 701. -/
def c10State : EngineState :=
  (onConnected (EngineState.new c1Tracker)).1

/-- C9 lowercase scripthash hex string: 64 times `'a'` (ASCII 97). -/
def c9LowerStr : List Nat := List.replicate 64 97

/-- C9 uppercase scripthash hex string: 64 times `'A'` (ASCII 65). -/
def c9UpperStr : List Nat := List.replicate 64 65

/-! ## Theorems -/

/-! ### Association-list lemmas -/

theorem alookup_insertSorted {β : Type} (k k' : KC × Nat) (v : β)
    (l : List ((KC × Nat) × β)) :
    alookup (insertSorted k v l) k' = if k = k' then some v else alookup l k' := by
  induction l with
  | nil => simp [insertSorted, alookup]
  | cons hd tl ih =>
    obtain ⟨a, b⟩ := hd
    by_cases hle : keyLe k a
    · simp [insertSorted, hle, alookup]
    · simp only [insertSorted, hle, if_false, alookup]
      by_cases ha : a = k'
      · subst ha
        have hne : ¬ k = a := by
          intro h; subst h; simp [keyLe] at hle
        simp [hne]
      · simp [ha, ih]

theorem insertSorted_perm {β : Type} (k : KC × Nat) (v : β)
    (l : List ((KC × Nat) × β)) : (insertSorted k v l).Perm ((k, v) :: l) := by
  induction l with
  | nil => simp [insertSorted]
  | cons hd tl ih =>
    by_cases hle : keyLe k hd.1
    · simp [insertSorted, hle]
    · simpa [insertSorted, hle] using
        (List.Perm.trans (List.Perm.cons hd ih) (List.Perm.swap (k, v) hd tl))

theorem alookup_ainsertReplace {α β : Type} [DecidableEq α]
    (l : List (α × β)) (k k' : α) (v : β) :
    alookup (ainsertReplace l k v) k' = if k = k' then some v else alookup l k' := by
  induction l with
  | nil =>
    by_cases hk : k = k' <;> simp [ainsertReplace, alookup, hk]
  | cons hd tl ih =>
    obtain ⟨a, b⟩ := hd
    by_cases ha : a = k
    · subst ha
      by_cases hk : a = k' <;> simp [ainsertReplace, alookup, hk]
    · simp only [ainsertReplace, ha, if_false, alookup]
      by_cases ha' : a = k'
      · subst ha'
        have : ¬ k = a := fun h => ha h.symm
        simp [this]
      · simp [ha', ih]

/-- Inserting the value a key already has leaves the list unchanged
(the identical-descriptor no-op). -/
theorem ainsertReplace_self {α β : Type} [DecidableEq α]
    (l : List (α × β)) (k : α) (v : β) (h : alookup l k = some v) :
    ainsertReplace l k v = l := by
  induction l with
  | nil => simp [alookup] at h
  | cons hd tl ih =>
    obtain ⟨a, b⟩ := hd
    by_cases ha : a = k
    · subst ha
      simp [alookup] at h
      simp [ainsertReplace, h]
    · simp only [alookup, ha, if_false] at h
      simp [ainsertReplace, ha, ih h]

theorem mem_ainsertReplace {α β : Type} [DecidableEq α]
    {l : List (α × β)} {k : α} {v : β} {e : α × β}
    (h : e ∈ ainsertReplace l k v) : e = (k, v) ∨ e ∈ l := by
  induction l with
  | nil => simpa [ainsertReplace] using h
  | cons hd tl ih =>
    obtain ⟨a, b⟩ := hd
    by_cases ha : a = k
    · subst ha
      rw [show ainsertReplace ((a, b) :: tl) a v = (a, v) :: tl from by
        simp [ainsertReplace]] at h
      rcases List.mem_cons.1 h with h | h
      · exact Or.inl h
      · exact Or.inr (List.mem_cons_of_mem _ h)
    · rw [show ainsertReplace ((a, b) :: tl) k v = (a, b) :: ainsertReplace tl k v from by
        simp [ainsertReplace, ha]] at h
      rcases List.mem_cons.1 h with h | h
      · exact Or.inr (by simp [h])
      · rcases ih h with h' | h'
        · exact Or.inl h'
        · exact Or.inr (List.mem_cons_of_mem _ h')

theorem alookup_eq_none {α β : Type} [DecidableEq α]
    (l : List (α × β)) (k : α) :
    alookup l k = none ↔ ∀ e ∈ l, e.1 ≠ k := by
  induction l with
  | nil => simp [alookup]
  | cons hd tl ih =>
    obtain ⟨a, b⟩ := hd
    by_cases ha : a = k
    · subst ha
      simp [alookup]
    · simp [alookup, ha, ih]

theorem alookup_mem {α β : Type} [DecidableEq α]
    {l : List (α × β)} {k : α} {v : β} (h : alookup l k = some v) : (k, v) ∈ l := by
  induction l with
  | nil => simp [alookup] at h
  | cons hd tl ih =>
    obtain ⟨a, b⟩ := hd
    by_cases ha : a = k
    · subst ha
      rw [show alookup ((a, b) :: tl) a = some b from by simp [alookup]] at h
      rcases Option.some.inj h with rfl
      exact List.mem_cons_self _ _
    · simp only [alookup, ha, if_false] at h
      exact List.mem_cons_of_mem _ (ih h)

theorem alookup_isSome_of_mem {α β : Type} [DecidableEq α]
    {l : List (α × β)} {e : α × β} (h : e ∈ l) : alookup l e.1 ≠ none := by
  intro hnone
  rw [alookup_eq_none] at hnone
  exact hnone e h rfl

/-- With duplicate-free keys, membership pins the looked-up value. -/
theorem alookup_of_mem_nodup {α β : Type} [DecidableEq α]
    {l : List (α × β)} (hn : (l.map (·.1)).Nodup) {e : α × β} (h : e ∈ l) :
    alookup l e.1 = some e.2 := by
  induction l with
  | nil => simp at h
  | cons hd tl ih =>
    simp only [List.map_cons, List.nodup_cons] at hn
    rcases List.mem_cons.1 h with h | h
    · subst h
      simp [alookup]
    · by_cases ha : hd.1 = e.1
      · exact absurd (ha ▸ List.mem_map_of_mem (·.1) h) hn.1
      · simp only [alookup, ha, if_false]
        exact ih hn.2 h

theorem alookup_aerase_ne {α β : Type} [DecidableEq α]
    (l : List (α × β)) {k k' : α} (h : k' ≠ k) :
    alookup (aerase l k) k' = alookup l k' := by
  induction l with
  | nil => simp [aerase]
  | cons hd tl ih =>
    obtain ⟨a, b⟩ := hd
    by_cases ha : a = k
    · subst ha
      have : ¬ a = k' := fun hh => h (hh.symm)
      simp [aerase, alookup, this]
    · simp [aerase, alookup, ha, ih]

theorem alookup_aerase_self {α β : Type} [DecidableEq α]
    {l : List (α × β)} (hn : (l.map (·.1)).Nodup) (k : α) :
    alookup (aerase l k) k = none := by
  induction l with
  | nil => simp [aerase, alookup]
  | cons hd tl ih =>
    obtain ⟨a, b⟩ := hd
    simp only [List.map_cons, List.nodup_cons] at hn
    by_cases ha : a = k
    · subst ha
      simp only [aerase, if_pos rfl]
      rw [alookup_eq_none]
      intro e he hek
      exact hn.1 (hek ▸ List.mem_map_of_mem (·.1) he)
    · simp [aerase, alookup, ha, ih hn.2]

theorem aerase_sublist {α β : Type} [DecidableEq α]
    (l : List (α × β)) (k : α) : (aerase l k).Sublist l := by
  induction l with
  | nil => simp [aerase]
  | cons hd tl ih =>
    obtain ⟨a, b⟩ := hd
    by_cases ha : a = k
    · simp only [aerase, ha, if_pos rfl]
      exact List.sublist_cons_self _ _
    · simp only [aerase, ha, if_false]
      exact List.Sublist.cons₂ (a, b) ih

theorem keys_ainsertReplace {α β : Type} [DecidableEq α]
    (l : List (α × β)) (k : α) (v : β) :
    (ainsertReplace l k v).map (·.1) =
      if (alookup l k).isNone then l.map (·.1) ++ [k] else l.map (·.1) := by
  induction l with
  | nil => simp [ainsertReplace, alookup]
  | cons hd tl ih =>
    obtain ⟨a, b⟩ := hd
    by_cases ha : a = k
    · subst ha
      simp [ainsertReplace, alookup]
    · simp only [ainsertReplace, ha, if_false, List.map_cons, alookup]
      rw [ih]
      by_cases hnone : (alookup tl k).isNone <;> simp [hnone, ha]

theorem keysNodup_ainsertReplace {α β : Type} [DecidableEq α]
    {l : List (α × β)} (hn : (l.map (·.1)).Nodup) (k : α) (v : β) :
    ((ainsertReplace l k v).map (·.1)).Nodup := by
  rw [keys_ainsertReplace]
  by_cases hnone : (alookup l k).isNone
  · simp only [hnone, if_pos]
    refine List.Nodup.append hn (List.nodup_singleton k) ?_
    intro x hx hx'
    rcases List.mem_map.1 hx with ⟨e, he, hek⟩
    rcases List.mem_singleton.1 hx' with rfl
    exact alookup_isSome_of_mem he (hek ▸ Option.isNone_iff_eq_none.1 hnone)
  · simpa [hnone] using hn

/-! ### Batch of concrete claim results -/

/-- **C1** (code bug, failing input).  Lookahead 1; after `Connected`, the
non-empty history for scripthash 701 (derivation index 1) derives indices
2 and 3, but `on_scripthash_history` records `(keychain 0, index + 1) =
(0, 2)` in `spk_index_by_hash` for **both** new scripthashes 702 and 703
— the tracker's own reverse map says 703's derivation index is 3.  When
703's history then becomes non-empty, the engine marks index 2 used
instead of 3, so the tracker never derives index 4 although the
gap-limit invariant requires `[0, 3 + 1] ⊆` SPK map (703's history
snapshot is non-empty). -/
theorem c1_spk_index_gap_limit_bug :
    (c1Final.map fun s => s.spkTracker.indexOfSpkHash 703) = some (some (0, 3)) ∧
    (c1Final.map fun s => alookup s.spkIndexByHash 703) = some (some (0, 2)) ∧
    (c1Final.map fun s => alookup s.spkTracker.derivedSpks (0, 4)) = some none ∧
    (c1Final.map fun s => alookup s.histories 703) = some (some [2]) := by decide

/-- **C2** (counterexample).  With scripthash 5 already pending and the
bootstrap callback registered, a cache-miss wake issues **no**
`request_history` call (the claim says one is always issued); and on a
cache miss for a non-pending scripthash 6 the pending set stays empty
(the claim says the hash is marked pending while the callback is
registered). -/
theorem c2_counterexample :
    (wakeStep 5 none [5] true).requests = [] ∧
    (wakeStep 6 none [] true).pending = [] := by decide

/-- **C2** (amended).  On a cache miss (`fetch_history_txs` returns
`None`) the orchestrator feeds no event to the engine, leaves
`pending_initial_syncs` and the bootstrap callback unchanged, and issues
`request_history(sh)` exactly when `sh` is not already pending. -/
theorem c2_cache_miss_amended (h : HashV) (pending : List HashV) (b : Bool) :
    (wakeStep h none pending b).events = [] ∧
    ((wakeStep h none pending b).requests = if h ∈ pending then [] else [h]) ∧
    (wakeStep h none pending b).pending = pending ∧
    (wakeStep h none pending b).bootstrap = b := by
  by_cases hm : h ∈ pending <;> simp [wakeStep, hm]

/-- **C3** (code bug, failing input).  Empty `txs` short-circuits (no
wallet update), but for a transaction confirmed at height 120 the update
the orchestrator builds contains only the raw transaction: its anchors
set is empty — the confirmation height is discarded and the cached block
headers are never consulted, contradicting the claim that the update
pairs each transaction with its confirmation height. -/
theorem c3_update_has_no_anchors :
    applyTransactionsCmd [] = none ∧
    applyTransactionsCmd [⟨⟨3⟩, 120⟩] =
      some { txs := [⟨3⟩], anchors := [] } := by decide

/-- **C4** (counterexample).  Two scripthashes whose histories share
confirmed height 500: the height is counted (and put in flight) only for
scripthash 100, so scripthash 200 finalizes with a remaining header count
of 0.  When scripthash 200's transaction response arrives before the
header response, 200 is enqueued on `ready` and its bundle (one
transaction at confirmed height 500) is fetchable while height 500 has no
cached header. -/
theorem c4_counterexample :
    c4S5.ready = [200] ∧
    (c4S5.fetchHistoryTxs 200).1 = some [⟨⟨22⟩, 500⟩] ∧
    alookup c4S5.blockHeaderCache 500 = none := by decide

/-- **C6** (code bug, failing input).  Lookahead 2 with indices
`{0, 1, 2}` derived: `mark_used_and_derive_new(0, 1)` must cover
`[2, 4]` and reach max index `1 + 2 = 3` per the claim, but the loop
breaks at the already-present index 2 and derives nothing — the tracker
is unchanged and index 3 stays underived. -/
theorem c6_mark_used_early_break_bug :
    Tracker.markUsedAndDeriveNew ctxLin c6Tracker 0 1 = (c6Tracker, []) ∧
    c6Tracker.lookahead = 2 ∧
    alookup c6Tracker.derivedSpks (0, 2) = some (702, 702) ∧
    alookup c6Tracker.derivedSpks (0, 3) = none := by decide

/-! ### Engine history-handler lemmas (C10) and adapter lemmas (C4) -/

/-- `script_by_hash` only grows during the newly-derived loop: a hash that
resolved before still resolves after. -/
theorem newlyLoop_scriptByHash_isSome (kc : KC) (index : Nat)
    (l : List (HashV × Spk)) (s : EngineState) {x : HashV}
    (h : alookup s.scriptByHash x ≠ none) :
    alookup (newlyLoop kc index s l).1.scriptByHash x ≠ none := by
  induction l generalizing s with
  | nil => simpa [newlyLoop] using h
  | cons p rest ih =>
    obtain ⟨nh, nspk⟩ := p
    have hlook : alookup (ainsertReplace s.scriptByHash nh nspk) x ≠ none := by
      rw [alookup_ainsertReplace]
      by_cases hx : nh = x
      · simp [hx]
      · simpa [hx] using h
    by_cases hm : nh ∈ s.subscribed
    · simpa [newlyLoop, hm] using ih _ hlook
    · simpa [newlyLoop, hm] using ih _ hlook

/-- `script_by_hash` only grows during the whole history event. -/
theorem historyCore_scriptByHash_isSome (ctx : DeriveCtx) (s : EngineState)
    (h x : HashV) (txs : List HistoryTx)
    (hx : alookup s.scriptByHash x ≠ none) :
    alookup (historyCore ctx s h txs).1.scriptByHash x ≠ none := by
  unfold historyCore
  by_cases hw : ((alookup s.histories h).getD []).isEmpty && !txs.isEmpty
  · simp only [hw, if_true]
    rcases hki : alookup s.spkIndexByHash h with _ | ⟨kc, index⟩
    · simpa [hki] using hx
    · simp only [hki]
      exact newlyLoop_scriptByHash_isSome _ _ _ _ (by simpa using hx)
  · simpa [hw] using hx

/-- If `check_history_complete` put `h` on `ready`, then either it was
already there or both of `h`'s remaining counters are zero afterwards
(it is the only enqueue site of the history-assembly path). -/
theorem checkHistoryComplete_ready (s : AdapterState) (x h : HashV)
    (hkt : (s.remainingTxs.map (·.1)).Nodup)
    (hkh : (s.remainingHeaders.map (·.1)).Nodup)
    (hmem : h ∈ (s.checkHistoryComplete x).ready) :
    h ∈ s.ready ∨
      ((alookup (s.checkHistoryComplete x).remainingTxs h).getD 0 = 0 ∧
       (alookup (s.checkHistoryComplete x).remainingHeaders h).getD 0 = 0) := by
  unfold AdapterState.checkHistoryComplete at *
  by_cases hz : (alookup s.remainingTxs x).getD 0 = 0 ∧
      (alookup s.remainingHeaders x).getD 0 = 0
  · simp only [hz, and_self, if_true] at hmem ⊢
    rcases List.mem_append.1 hmem with hm | hm
    · exact Or.inl hm
    · rcases List.mem_singleton.1 hm with rfl
      right
      constructor
      · rw [alookup_aerase_self hkt]
        rfl
      · rw [alookup_aerase_self hkh]
        rfl
  · simp only [hz, if_false] at hmem
    exact Or.inl hmem

/-- The per-entry history loop only queues commands: `ready` and both
counter maps are untouched. -/
theorem historyEntriesLoop_ready (s : AdapterState) (hash : HashV)
    (es : List HistEntry) :
    (historyEntriesLoop s hash es).1.ready = s.ready ∧
    (historyEntriesLoop s hash es).1.remainingTxs = s.remainingTxs ∧
    (historyEntriesLoop s hash es).1.remainingHeaders = s.remainingHeaders := by
  induction es generalizing s with
  | nil => simp [historyEntriesLoop]
  | cons e rest ih =>
    simp only [historyEntriesLoop]
    split
    · split
      · simpa using ih _
      · simpa using ih _
    · simpa using ih _

/-- Lifting `checkHistoryComplete_ready` over the trailing
`if … then check_history_complete … else …` of a response branch. -/
theorem readyIte (s' : AdapterState) (x h : HashV) {c : Prop} [Decidable c]
    (hkt' : (s'.remainingTxs.map (·.1)).Nodup)
    (hkh' : (s'.remainingHeaders.map (·.1)).Nodup)
    (hmem : h ∈ (if c then s'.checkHistoryComplete x else s').ready) :
    h ∈ s'.ready ∨
      ((alookup (if c then s'.checkHistoryComplete x else s').remainingTxs h).getD 0 = 0 ∧
       (alookup (if c then s'.checkHistoryComplete x else s').remainingHeaders h).getD 0 = 0) := by
  by_cases hc : c
  · simp only [hc, if_true] at hmem ⊢
    exact checkHistoryComplete_ready s' x h hkt' hkh' hmem
  · simp only [hc, if_false] at hmem ⊢
    exact Or.inl hmem

/-- **C4** (amended).  Any scripthash that a single `process_message` step
newly enqueues on `ready` has both its remaining transaction count and its
remaining header count at zero in the resulting state (the counters-zero
finalization discipline holds for every response; what fails in the
original claim is only the cross-scripthash header-presence consequence,
refuted separately). -/
theorem c4_ready_only_when_counts_zero (s : AdapterState) (id : Nat)
    (p : RespPayload) (h : HashV)
    (hkt : (s.remainingTxs.map (·.1)).Nodup)
    (hkh : (s.remainingHeaders.map (·.1)).Nodup)
    (hmem : h ∈ (processResponse s id p).ready) :
    h ∈ s.ready ∨
      ((alookup (processResponse s id p).remainingTxs h).getD 0 = 0 ∧
       (alookup (processResponse s id p).remainingHeaders h).getD 0 = 0) := by
  rcases hreq : alookup s.inflightRequests id with _ | rt
  · left
    simpa [processResponse, hreq] using hmem
  · cases rt with
    | history hash =>
      cases p with
      | historyResult entries =>
        by_cases hemp : entries.isEmpty
        · simp only [processResponse, hreq, hemp, if_true] at hmem ⊢
          have hres := checkHistoryComplete_ready _ hash h
            (by simpa using keysNodup_ainsertReplace hkt hash entries.length)
            (by simpa using keysNodup_ainsertReplace hkh hash 0) hmem
          simpa using hres
        · simp only [processResponse, hreq, hemp, if_false] at hmem ⊢
          left
          have hr := historyEntriesLoop_ready
            { s with inflightRequests := aerase s.inflightRequests id,
                     remainingTxs := ainsertReplace s.remainingTxs hash entries.length }
            hash entries
          simpa [hr.1] using hmem
      | txResult tx =>
        left; simpa [processResponse, hreq] using hmem
      | headerResult hd =>
        left; simpa [processResponse, hreq] using hmem
    | transaction related height =>
      cases p with
      | historyResult es =>
        left; simpa [processResponse, hreq] using hmem
      | txResult tx =>
        rcases hrem : alookup s.remainingTxs related with _ | rem
        · left
          simpa [processResponse, hreq, hrem] using hmem
        · simp only [processResponse, hreq, hrem] at hmem ⊢
          have hres := readyIte _ related h
            (by simpa using keysNodup_ainsertReplace hkt related (rem - 1))
            (by simpa using hkh) hmem
          simpa using hres
      | headerResult hd =>
        left; simpa [processResponse, hreq] using hmem
    | blockHeader height related =>
      cases p with
      | historyResult es =>
        left; simpa [processResponse, hreq] using hmem
      | txResult tx =>
        left; simpa [processResponse, hreq] using hmem
      | headerResult hd =>
        rcases hrem : alookup s.remainingHeaders related with _ | rem
        · simp only [processResponse, hreq, hrem] at hmem ⊢
          have hres := readyIte _ related h (by simpa using hkt)
            (by simpa using hkh) hmem
          simpa using hres
        · simp only [processResponse, hreq, hrem] at hmem ⊢
          have hres := readyIte _ related h (by simpa using hkt)
            (by simpa using keysNodup_ainsertReplace hkh related (rem - 1)) hmem
          simpa using hres

/-- Witness for C4: an empty-history response for an in-flight request
enqueues its scripthash with both counters zero. -/
theorem c4_ready_only_when_counts_zero_witness :
    9 ∈ c4WState.ready ∨
      ((alookup (processResponse c4WState 1 (RespPayload.historyResult [])).remainingTxs 9).getD 0 = 0 ∧
       (alookup (processResponse c4WState 1 (RespPayload.historyResult [])).remainingHeaders 9).getD 0 = 0) :=
  c4_ready_only_when_counts_zero c4WState 1 (RespPayload.historyResult []) 9
    (by decide) (by decide) (by decide)

/-- **C10** (confirmed).  `on_scripthash_history` panics (its final
`unwrap`) exactly when the event's hash resolves to nothing in
`script_by_hash` at the point of the lookup (i.e. it was neither
recorded before the event nor inserted by the event's own derivation);
and whenever the hash was previously recorded, the handler succeeds and
its last command is `ApplyTransactions` built from the recorded script
and the event's `txs`. -/
theorem c10_history_handler_unwrap (ctx : DeriveCtx) (s : EngineState)
    (h : HashV) (txs : List HistoryTx) :
    (onScriptHashHistory ctx s h txs = none ↔
      alookup (historyCore ctx s h txs).1.scriptByHash h = none) ∧
    (alookup s.scriptByHash h ≠ none →
      ∃ st cmds script, onScriptHashHistory ctx s h txs = some (st, cmds) ∧
        alookup st.scriptByHash h = some script ∧
        cmds.getLast? = some (EngineCommand.applyTransactions script txs)) := by
  constructor
  · unfold onScriptHashHistory
    cases hc : alookup (historyCore ctx s h txs).1.scriptByHash h <;> simp [hc]
  · intro hs
    have hcore := historyCore_scriptByHash_isSome ctx s h h txs hs
    cases hsc : alookup (historyCore ctx s h txs).1.scriptByHash h with
    | none => exact absurd hsc hcore
    | some script =>
      refine ⟨(historyCore ctx s h txs).1,
        (historyCore ctx s h txs).2 ++ [EngineCommand.applyTransactions script txs],
        script, ?_, hsc, by simp⟩
      unfold onScriptHashHistory
      simp [hsc]

/-- Witness for C10: after `Connected`, a history event for the recorded
scripthash 700 succeeds and ends in `ApplyTransactions`. -/
theorem c10_history_handler_unwrap_witness :
    ∃ st cmds script,
      onScriptHashHistory ctxLin c10State 700 [⟨⟨9⟩, 3⟩] = some (st, cmds) ∧
      alookup st.scriptByHash 700 = some script ∧
      cmds.getLast? = some (EngineCommand.applyTransactions script [⟨⟨9⟩, 3⟩]) :=
  (c10_history_handler_unwrap ctxLin c10State 700 [⟨⟨9⟩, 3⟩]).2 (by decide)

/-! ### Hex wire-encoding lemmas (C9) -/

theorem hexDigitVal_natToHexDigit {d : Nat} (hd : d < 16) :
    hexDigitVal (natToHexDigit d) = some d := by
  unfold natToHexDigit hexDigitVal
  by_cases h10 : d < 10
  · have hb : 48 ≤ 48 + d ∧ 48 + d ≤ 57 := by omega
    simp only [h10, if_true, hb, and_self]
    simp only [Option.some.injEq]
    omega
  · have hb1 : ¬ (48 ≤ 87 + d ∧ 87 + d ≤ 57) := by omega
    have hb2 : 97 ≤ 87 + d ∧ 87 + d ≤ 102 := by omega
    simp only [h10, if_false, hb1, hb2, and_self, if_true]
    simp only [Option.some.injEq]
    omega

theorem hexDigitVal_lt {c v : Nat} (h : hexDigitVal c = some v) : v < 16 := by
  unfold hexDigitVal at h
  split at h
  · next hb => obtain rfl := Option.some.inj h; omega
  · split at h
    · next hb2 => obtain rfl := Option.some.inj h; omega
    · split at h
      · next hb3 => obtain rfl := Option.some.inj h; omega
      · exact absurd h (by simp)

theorem natToHexDigit_of_lower {c v : Nat} (hl : isLowerHexDigit c = true)
    (h : hexDigitVal c = some v) : natToHexDigit v = c := by
  unfold isLowerHexDigit at hl
  simp only [Bool.or_eq_true, Bool.and_eq_true, decide_eq_true_eq] at hl
  unfold hexDigitVal at h
  unfold natToHexDigit
  split at h
  · next hb =>
      obtain rfl := Option.some.inj h
      have h10 : c - 48 < 10 := by omega
      simp only [h10, if_true]
      omega
  · next hb =>
      split at h
      · next hb2 =>
          obtain rfl := Option.some.inj h
          have h10 : ¬ (c - 87 < 10) := by omega
          simp only [h10, if_false]
          omega
      · next hb2 =>
          split at h
          · next hb3 =>
              exfalso
              omega
          · exact absurd h (by simp)

theorem hexDecode_hexEncode {bs : List Nat} (hb : ∀ b ∈ bs, b < 256) :
    hexDecode (hexEncode bs) = some bs := by
  induction bs with
  | nil => simp [hexEncode, hexDecode]
  | cons b rest ih =>
    have hblt : b < 256 := hb b (List.mem_cons_self _ _)
    have hrest : ∀ x ∈ rest, x < 256 := fun x hx => hb x (List.mem_cons_of_mem _ hx)
    have hdiv : b / 16 < 16 := by omega
    have hmod : b % 16 < 16 := by omega
    rw [show hexEncode (b :: rest) =
        natToHexDigit (b / 16) :: natToHexDigit (b % 16) :: hexEncode rest from by
      simp [hexEncode]]
    simp only [hexDecode, hexDigitVal_natToHexDigit hdiv,
      hexDigitVal_natToHexDigit hmod, ih hrest]
    simp only [Option.some.injEq, List.cons.injEq, and_true]
    omega

theorem hexEncode_of_decode_lower {bs : List Nat} :
    ∀ {s : List Nat}, hexDecode s = some bs → (∀ c ∈ s, isLowerHexDigit c = true) →
    hexEncode bs = s := by
  induction bs with
  | nil =>
    intro s hdec hlow
    match s with
    | [] => simp [hexEncode]
    | [c] => simp [hexDecode] at hdec
    | c1 :: c2 :: rest =>
      rcases h1 : hexDigitVal c1 with _ | v1 <;>
        rcases h2 : hexDigitVal c2 with _ | v2 <;>
          rcases h3 : hexDecode rest with _ | ds <;>
            simp [hexDecode, h1, h2, h3] at hdec
  | cons b bt ih =>
    intro s hdec hlow
    match s with
    | [] => simp [hexDecode] at hdec
    | [c] => simp [hexDecode] at hdec
    | c1 :: c2 :: rest =>
      rcases h1 : hexDigitVal c1 with _ | v1 <;>
        rcases h2 : hexDigitVal c2 with _ | v2 <;>
          rcases h3 : hexDecode rest with _ | ds <;>
            simp [hexDecode, h1, h2, h3] at hdec
      obtain ⟨hbv, hds⟩ := hdec
      subst hds
      have hv1 : v1 < 16 := hexDigitVal_lt h1
      have hv2 : v2 < 16 := hexDigitVal_lt h2
      have hdiv : b / 16 = v1 := by omega
      have hmod : b % 16 = v2 := by omega
      simp only [hexEncode, List.flatMap_cons, hdiv, hmod]
      rw [natToHexDigit_of_lower (hlow c1 (by simp)) h1,
          natToHexDigit_of_lower (hlow c2 (by simp)) h2]
      have := ih h3 (fun c hc => hlow c (by simp [hc]))
      simp only [hexEncode] at this
      simp [this]

/-- **C9** (amended).  `hex(reverse(hash))` is injective on byte lists
(in particular on 32-byte scripthashes), and parsing a notification
scripthash followed by re-encoding yields the identical hex string for
lowercase input (`hex::decode` also accepts uppercase, which re-encodes
to its lowercase normalization — refuted separately). -/
theorem c9_wire_encoding_amended :
    (∀ h1 h2 : List Nat, (∀ b ∈ h1, b < 256) → (∀ b ∈ h2, b < 256) →
      encodeScripthashHex h1 = encodeScripthashHex h2 → h1 = h2) ∧
    (∀ s bs, parseNotificationHash s = some bs →
      (∀ c ∈ s, isLowerHexDigit c = true) → encodeScripthashHex bs = s) := by
  constructor
  · intro h1 h2 hb1 hb2 heq
    have d1 : hexDecode (hexEncode h1.reverse) = some h1.reverse :=
      hexDecode_hexEncode (fun b hb => hb1 b (List.mem_reverse.1 hb))
    have d2 : hexDecode (hexEncode h2.reverse) = some h2.reverse :=
      hexDecode_hexEncode (fun b hb => hb2 b (List.mem_reverse.1 hb))
    unfold encodeScripthashHex at heq
    rw [heq, d2] at d1
    have hrev := Option.some.inj d1
    have := congrArg List.reverse hrev
    simpa using this.symm
  · intro s bs hp hlow
    unfold parseNotificationHash at hp
    rcases hd : hexDecode s with _ | ds
    · rw [hd] at hp
      exact absurd hp (by simp)
    · rw [hd] at hp
      dsimp only at hp
      by_cases hlen : ds.length = 32
      · rw [if_pos hlen] at hp
        obtain rfl := Option.some.inj hp
        unfold encodeScripthashHex
        rw [List.reverse_reverse]
        exact hexEncode_of_decode_lower hd hlow
      · rw [if_neg hlen] at hp
        exact absurd hp (by simp)

/-- Witness for C9: the lowercase 64-char string round-trips. -/
theorem c9_wire_encoding_amended_witness :
    encodeScripthashHex (List.replicate 32 170) = c9LowerStr :=
  c9_wire_encoding_amended.2 c9LowerStr (List.replicate 32 170)
    (by decide) (by decide)

/-! ### Connected-handler lemmas (C7) -/

theorem newOnce_nil_of_subset (sub : List HashV) (l : List HashV)
    (hsub : ∀ h ∈ l, h ∈ sub) : newOnce sub l = [] := by
  induction l with
  | nil => simp [newOnce]
  | cons h t ih =>
    have hm : h ∈ sub := hsub h (List.mem_cons_self _ _)
    simp only [newOnce, hm, if_true]
    exact ih (fun x hx => hsub x (List.mem_cons_of_mem _ hx))

theorem onConnectedLoop_cmds (tr : Tracker) (s : EngineState)
    (pairs : List (HashV × Spk)) :
    (onConnectedLoop tr s pairs).2 =
      (newOnce s.subscribed (pairs.map (·.1))).flatMap
        (fun h => [EngineCommand.fetchHistory h, EngineCommand.subscribe h]) := by
  induction pairs generalizing s with
  | nil => simp [onConnectedLoop, newOnce]
  | cons p rest ih =>
    obtain ⟨h, spk⟩ := p
    rcases hki : tr.indexOfSpkHash h with _ | ki <;>
      by_cases hm : h ∈ s.subscribed <;>
        simp [onConnectedLoop, hki, hm, newOnce, ih]

theorem onConnectedLoop_subscribed (tr : Tracker) (s : EngineState)
    (pairs : List (HashV × Spk)) :
    (∀ x ∈ s.subscribed, x ∈ (onConnectedLoop tr s pairs).1.subscribed) ∧
    (∀ p ∈ pairs, p.1 ∈ (onConnectedLoop tr s pairs).1.subscribed) := by
  induction pairs generalizing s with
  | nil => simp [onConnectedLoop]
  | cons q rest ih =>
    obtain ⟨h, spk⟩ := q
    rcases hki : tr.indexOfSpkHash h with _ | ki <;> by_cases hm : h ∈ s.subscribed
    all_goals
      constructor
    · intro x hx
      simpa [onConnectedLoop, hki, hm] using (ih _).1 x (by simpa using hx)
    · intro p hp
      rcases List.mem_cons.1 hp with rfl | hp'
      · simpa [onConnectedLoop, hki, hm] using (ih _).1 h (by simpa using hm)
      · simpa [onConnectedLoop, hki, hm] using (ih _).2 p hp'
    · intro x hx
      simpa [onConnectedLoop, hki, hm] using (ih _).1 x (by simp [hx])
    · intro p hp
      rcases List.mem_cons.1 hp with rfl | hp'
      · simpa [onConnectedLoop, hki, hm] using (ih _).1 h (by simp)
      · simpa [onConnectedLoop, hki, hm] using (ih _).2 p hp'
    · intro x hx
      simpa [onConnectedLoop, hki, hm] using (ih _).1 x (by simpa using hx)
    · intro p hp
      rcases List.mem_cons.1 hp with rfl | hp'
      · simpa [onConnectedLoop, hki, hm] using (ih _).1 h (by simpa using hm)
      · simpa [onConnectedLoop, hki, hm] using (ih _).2 p hp'
    · intro x hx
      simpa [onConnectedLoop, hki, hm] using (ih _).1 x (by simp [hx])
    · intro p hp
      rcases List.mem_cons.1 hp with rfl | hp'
      · simpa [onConnectedLoop, hki, hm] using (ih _).1 h (by simp)
      · simpa [onConnectedLoop, hki, hm] using (ih _).2 p hp'

theorem onConnectedLoop_tracker (tr : Tracker) (s : EngineState)
    (pairs : List (HashV × Spk)) :
    (onConnectedLoop tr s pairs).1.spkTracker = s.spkTracker := by
  induction pairs generalizing s with
  | nil => simp [onConnectedLoop]
  | cons q rest ih =>
    obtain ⟨h, spk⟩ := q
    rcases hki : tr.indexOfSpkHash h with _ | ki <;>
      by_cases hm : h ∈ s.subscribed <;>
        simpa [onConnectedLoop, hki, hm] using ih _

theorem onConnectedLoop_scriptByHash (tr : Tracker) (s : EngineState)
    (pairs : List (HashV × Spk)) :
    (∀ x, alookup s.scriptByHash x ≠ none →
      alookup (onConnectedLoop tr s pairs).1.scriptByHash x ≠ none) ∧
    (∀ p ∈ pairs, tr.indexOfSpkHash p.1 ≠ none →
      alookup (onConnectedLoop tr s pairs).1.scriptByHash p.1 ≠ none) := by
  induction pairs generalizing s with
  | nil => simp [onConnectedLoop]
  | cons q rest ih =>
    obtain ⟨h, spk⟩ := q
    rcases hki : tr.indexOfSpkHash h with _ | ki
    · constructor
      · intro x hx
        by_cases hm : h ∈ s.subscribed <;>
          simpa [onConnectedLoop, hki, hm] using (ih _).1 x (by simpa using hx)
      · intro p hp hpr
        rcases List.mem_cons.1 hp with rfl | hp'
        · exact absurd hpr (by simp [hki])
        · by_cases hm : h ∈ s.subscribed <;>
            simpa [onConnectedLoop, hki, hm] using (ih _).2 p hp' hpr
    · have hlook : ∀ x, alookup s.scriptByHash x ≠ none →
          alookup (ainsertReplace s.scriptByHash h spk) x ≠ none := by
        intro x hx
        rw [alookup_ainsertReplace]
        by_cases hhx : h = x
        · simp [hhx]
        · simpa [hhx] using hx
      have hlookh : alookup (ainsertReplace s.scriptByHash h spk) h ≠ none := by
        rw [alookup_ainsertReplace]; simp
      constructor
      · intro x hx
        by_cases hm : h ∈ s.subscribed <;>
          simpa [onConnectedLoop, hki, hm] using (ih _).1 x (by simpa using hlook x hx)
      · intro p hp hpr
        rcases List.mem_cons.1 hp with rfl | hp'
        · by_cases hm : h ∈ s.subscribed <;>
            simpa [onConnectedLoop, hki, hm] using (ih _).1 h (by simpa using hlookh)
        · by_cases hm : h ∈ s.subscribed <;>
            simpa [onConnectedLoop, hki, hm] using (ih _).2 p hp' hpr

/-- **C7** (confirmed).  On `Connected` the engine emits, for each
scripthash of `all_spks()` not already in the subscription set (first
occurrences, in enumeration order), `FetchHistory(sh)` immediately
followed by `Subscribe(sh)` and nothing else; every enumerated hash ends
up recorded in `script_by_hash` (given that the tracker's reverse lookup
resolves it, as it does in consistent states) and in the subscription
set; and re-entering `Connected` without tracker growth yields zero
commands. -/
theorem c7_connected_commands_idempotent (s : EngineState)
    (hrev : ∀ p ∈ s.spkTracker.allSpks, s.spkTracker.indexOfSpkHash p.1 ≠ none) :
    ((onConnected s).2 =
      (newOnce s.subscribed (s.spkTracker.allSpks.map (·.1))).flatMap
        (fun h => [EngineCommand.fetchHistory h, EngineCommand.subscribe h])) ∧
    (∀ p ∈ s.spkTracker.allSpks,
      alookup (onConnected s).1.scriptByHash p.1 ≠ none ∧
      p.1 ∈ (onConnected s).1.subscribed) ∧
    ((onConnected (onConnected s).1).2 = []) := by
  refine ⟨?_, ?_, ?_⟩
  · unfold onConnected
    simpa using onConnectedLoop_cmds s.spkTracker { s with connected := true } s.spkTracker.allSpks
  · intro p hp
    constructor
    · exact (onConnectedLoop_scriptByHash s.spkTracker { s with connected := true }
        s.spkTracker.allSpks).2 p hp (hrev p hp)
    · exact (onConnectedLoop_subscribed s.spkTracker { s with connected := true }
        s.spkTracker.allSpks).2 p hp
  · have htr : (onConnectedLoop s.spkTracker { s with connected := true }
        s.spkTracker.allSpks).1.spkTracker = s.spkTracker :=
      onConnectedLoop_tracker _ _ _
    unfold onConnected
    rw [onConnectedLoop_cmds]
    simp only [htr]
    rw [newOnce_nil_of_subset]
    · simp
    · intro x hx
      rcases List.mem_map.1 hx with ⟨p, hp, rfl⟩
      exact (onConnectedLoop_subscribed s.spkTracker { s with connected := true }
        s.spkTracker.allSpks).2 p hp

/-- Witness for C7: re-entering `Connected` on the lookahead-2 tracker
yields zero commands. -/
theorem c7_connected_commands_idempotent_witness :
    (onConnected (onConnected (EngineState.new c6Tracker)).1).2 = [] :=
  (c7_connected_commands_idempotent (EngineState.new c6Tracker) (by decide)).2.2

/-! ### Tracker derivation lemmas (C5) -/

theorem deriveRangeLoop_vacant (ctx : DeriveCtx) (k : KC) (d : Descr) :
    ∀ (is : List Nat) (t : Tracker),
    alookup t.descriptors k = some d →
    (∀ i ∈ is, alookup t.derivedSpks (k, i) = none) →
    is.Nodup →
    (Tracker.deriveRangeLoop ctx t k is).2 = is.map (fun i => (ctx.hspk d i, ctx.derive d i)) ∧
    (Tracker.deriveRangeLoop ctx t k is).1.descriptors = t.descriptors ∧
    (∀ key : KC × Nat, alookup (Tracker.deriveRangeLoop ctx t k is).1.derivedSpks key =
      if key.1 = k ∧ key.2 ∈ is then some (ctx.hspk d key.2, ctx.derive d key.2)
      else alookup t.derivedSpks key) ∧
    ((Tracker.deriveRangeLoop ctx t k is).1.derivedSpks).Perm
      (is.map (fun i => ((k, i), (ctx.hspk d i, ctx.derive d i))) ++ t.derivedSpks) ∧
    (Tracker.deriveRangeLoop ctx t k is).1.derivedSpksRev =
      is.foldl (fun r i => ainsertReplace r (ctx.hspk d i) (k, i)) t.derivedSpksRev := by
  intro is
  induction is with
  | nil =>
    intro t hd hvac hnd
    simp [Tracker.deriveRangeLoop]
  | cons i rest ih =>
    intro t hd hvac hnd
    have hvi : alookup t.derivedSpks (k, i) = none := hvac i (List.mem_cons_self _ _)
    have hstep : Tracker.addDerivedSpk ctx t k i =
        ({ t with
            derivedSpks := insertSorted (k, i) (ctx.hspk d i, ctx.derive d i) t.derivedSpks,
            derivedSpksRev := ainsertReplace t.derivedSpksRev (ctx.hspk d i) (k, i) },
          some (ctx.hspk d i, ctx.derive d i)) := by
      unfold Tracker.addDerivedSpk
      rw [hvi, hd]
      rfl
    have hni : i ∉ rest := (List.nodup_cons.1 hnd).1
    set t' : Tracker :=
      { t with
          derivedSpks := insertSorted (k, i) (ctx.hspk d i, ctx.derive d i) t.derivedSpks,
          derivedSpksRev := ainsertReplace t.derivedSpksRev (ctx.hspk d i) (k, i) } with ht'
    have hd' : alookup t'.descriptors k = some d := hd
    have hvac' : ∀ j ∈ rest, alookup t'.derivedSpks (k, j) = none := by
      intro j hj
      rw [ht']
      show alookup (insertSorted (k, i) _ t.derivedSpks) (k, j) = none
      rw [alookup_insertSorted]
      have : ¬ ((k, i) = (k, j)) := by
        intro hh
        exact hni (by cases hh; exact hj)
      rw [if_neg this]
      exact hvac j (List.mem_cons_of_mem _ hj)
    obtain ⟨ih1, ih2, ih3, ih4, ih5⟩ := ih t' hd' hvac' (List.nodup_cons.1 hnd).2
    refine ⟨?_, ?_, ?_, ?_, ?_⟩
    · simp only [Tracker.deriveRangeLoop, hstep]
      simpa using ih1
    · simp only [Tracker.deriveRangeLoop, hstep]
      simpa using ih2
    · intro key
      simp only [Tracker.deriveRangeLoop, hstep]
      show alookup (Tracker.deriveRangeLoop ctx t' k rest).1.derivedSpks key = _
      rw [ih3 key]
      by_cases hk1 : key.1 = k
      · by_cases hk2 : key.2 ∈ i :: rest
        · rcases List.mem_cons.1 hk2 with he | hr
          · have hnr : key.2 ∉ rest := he ▸ hni
            simp only [hk1, hnr, and_false, if_false, ht']
            show alookup (insertSorted (k, i) _ t.derivedSpks) key = _
            rw [alookup_insertSorted]
            have hkey : (k, i) = key := by
              cases key
              simp only at hk1 he
              simp [hk1, he]
            rw [if_pos hkey]
            simp [hk1, hk2, ← he]
          · simp [hk1, hr, hk2]
        · have hnr : key.2 ∉ rest := fun hh => hk2 (List.mem_cons_of_mem _ hh)
          simp only [hk1, hnr, and_false, if_false, hk2, ht']
          show alookup (insertSorted (k, i) _ t.derivedSpks) key = _
          rw [alookup_insertSorted]
          have : ¬ ((k, i) = key) := by
            intro hh
            exact hk2 (by cases key; cases hh; simp)
          rw [if_neg this]
      · simp only [hk1, false_and, if_false, ht']
        show alookup (insertSorted (k, i) _ t.derivedSpks) key = _
        rw [alookup_insertSorted]
        have : ¬ ((k, i) = key) := by
          intro hh
          cases key
          cases hh
          exact hk1 rfl
        rw [if_neg this]
    · simp only [Tracker.deriveRangeLoop, hstep]
      show ((Tracker.deriveRangeLoop ctx t' k rest).1.derivedSpks).Perm _
      refine ih4.trans ?_
      simp only [List.map_cons, List.cons_append]
      refine List.Perm.trans (List.Perm.append_left _ ?_) List.perm_middle
      exact insertSorted_perm _ _ _
    · simp only [Tracker.deriveRangeLoop, hstep]
      show (Tracker.deriveRangeLoop ctx t' k rest).1.derivedSpksRev = _
      rw [ih5]
      simp [ht']

theorem alookup_filter_keychain {β : Type} (l : List ((KC × Nat) × β)) (k : KC)
    (key : KC × Nat) :
    alookup (l.filter (fun e => ¬ e.1.1 = k)) key =
      if key.1 = k then none else alookup l key := by
  induction l with
  | nil => by_cases hk : key.1 = k <;> simp [alookup, hk]
  | cons e t ih =>
    obtain ⟨⟨k1, i1⟩, v⟩ := e
    by_cases he : k1 = k
    · subst he
      rw [show (((k1, i1), v) :: t).filter (fun e => ¬ e.1.1 = k1) =
          t.filter (fun e => ¬ e.1.1 = k1) from by simp [List.filter]]
      rw [ih]
      by_cases hk : key.1 = k1
      · simp [hk]
      · have hne : ¬ ((k1, i1) = key) := by
          intro hh
          exact hk (by rw [← hh])
        simp [alookup, hne, hk]
    · rw [show (((k1, i1), v) :: t).filter (fun e => ¬ e.1.1 = k) =
          ((k1, i1), v) :: t.filter (fun e => ¬ e.1.1 = k) from by simp [List.filter, he]]
      by_cases hkey : (k1, i1) = key
      · have hk : ¬ (key.1 = k) := by
          rw [← hkey]
          exact he
        simp [alookup, hkey, hk]
      · simp only [alookup, hkey, if_false]
        exact ih

theorem alookup_foldl_aerase {α β : Type} [DecidableEq α]
    (ks : List α) (r : List (α × β)) (hn : (r.map (·.1)).Nodup) (x : α) :
    alookup (ks.foldl (fun acc k' => aerase acc k') r) x =
      if x ∈ ks then none else alookup r x := by
  induction ks generalizing r with
  | nil => simp
  | cons k kt ih =>
    have hn' : ((aerase r k).map (·.1)).Nodup :=
      hn.sublist (List.Sublist.map _ (aerase_sublist r k))
    simp only [List.foldl_cons]
    rw [ih _ hn']
    by_cases hkt : x ∈ kt
    · simp [hkt]
    · by_cases hxk : x = k
      · subst hxk
        simp [hkt, alookup_aerase_self hn]
      · have : ¬ (x ∈ k :: kt) := by
          intro hh
          rcases List.mem_cons.1 hh with hh | hh
          · exact hxk hh
          · exact hkt hh
        simp only [hkt, if_false, this]
        exact alookup_aerase_ne r hxk

theorem clearKeychain_fwd (t : Tracker) (k : KC) (key : KC × Nat) :
    alookup (t.clearKeychain k).derivedSpks key =
      if key.1 = k then none else alookup t.derivedSpks key :=
  alookup_filter_keychain t.derivedSpks k key

theorem clearKeychain_rev (t : Tracker) (k : KC)
    (hn : (t.derivedSpksRev.map (·.1)).Nodup) (h0 : HashV) :
    alookup (t.clearKeychain k).derivedSpksRev h0 =
      if h0 ∈ t.hashesOf k then none else alookup t.derivedSpksRev h0 := by
  show alookup
      ((t.derivedSpks.filter (fun e => e.1.1 = k)).foldl
        (fun r e => aerase r e.2.1) t.derivedSpksRev) h0 = _
  rw [show (t.derivedSpks.filter (fun e => e.1.1 = k)).foldl
        (fun r e => aerase r e.2.1) t.derivedSpksRev =
      ((t.derivedSpks.filter (fun e => e.1.1 = k)).map (fun e => e.2.1)).foldl
        (fun r h => aerase r h) t.derivedSpksRev from (List.foldl_map _ _ _ _).symm]
  exact alookup_foldl_aerase _ _ hn h0

theorem alookup_foldl_ainsert_ne {α β γ : Type} [DecidableEq α]
    (l : List γ) (f : γ → α) (g : γ → β) (r : List (α × β)) (x : α)
    (hne : ∀ c ∈ l, f c ≠ x) :
    alookup (l.foldl (fun acc c => ainsertReplace acc (f c) (g c)) r) x =
      alookup r x := by
  induction l generalizing r with
  | nil => simp
  | cons c ct ih =>
    simp only [List.foldl_cons]
    rw [ih _ (fun c' hc' => hne c' (List.mem_cons_of_mem _ hc'))]
    rw [alookup_ainsertReplace]
    rw [if_neg (hne c (List.mem_cons_self _ _))]

/-- **C5** (confirmed).  `insert_descriptor(K, D, next_index)`:
re-inserting the identical descriptor is a literal no-op returning `[]`;
inserting a different descriptor (with fresh hashes, per the data model's
scripthash-uniqueness invariant) purges the keychain and derives exactly
indices `0 ..= next_index + lookahead` — the keychain ends up with
exactly `next_index + lookahead + 1` entries, the reverse map retains
none of the old hashes, and the returned vector is exactly the newly
added pairs (likewise on a fresh keychain). -/
theorem c5_insert_descriptor_semantics (ctx : DeriveCtx) (t : Tracker)
    (k : KC) (d : Descr) (n : Nat) :
    (alookup t.descriptors k = some d →
      Tracker.insertDescriptor ctx t k d n = (t, [])) ∧
    (∀ od, alookup t.descriptors k = some od → od ≠ d →
      (t.derivedSpksRev.map (·.1)).Nodup →
      (∀ i, i < n + t.lookahead + 1 → ctx.hspk d i ∉ t.hashesOf k) →
      (Tracker.insertDescriptor ctx t k d n).2 = rangePairs ctx d (n + t.lookahead + 1) ∧
      (∀ i : Nat, alookup (Tracker.insertDescriptor ctx t k d n).1.derivedSpks (k, i) =
        if i < n + t.lookahead + 1 then some (ctx.hspk d i, ctx.derive d i) else none) ∧
      ((Tracker.insertDescriptor ctx t k d n).1.derivedSpks.filter
        (fun e => e.1.1 = k)).length = n + t.lookahead + 1 ∧
      (∀ h0 ∈ t.hashesOf k,
        alookup (Tracker.insertDescriptor ctx t k d n).1.derivedSpksRev h0 = none)) ∧
    (alookup t.descriptors k = none →
      (∀ i, alookup t.derivedSpks (k, i) = none) →
      (Tracker.insertDescriptor ctx t k d n).2 = rangePairs ctx d (n + t.lookahead + 1)) := by
  refine ⟨?_, ?_, ?_⟩
  · intro hd
    unfold Tracker.insertDescriptor
    rw [hd]
    simp [ainsertReplace_self _ _ _ hd]
  · intro od hod hne hrevn hfresh
    have hins : Tracker.insertDescriptor ctx t k d n =
        Tracker.deriveRangeLoop ctx
          (Tracker.clearKeychain
            { t with descriptors := ainsertReplace t.descriptors k d } k) k
          (List.range (n + t.lookahead + 1)) := by
      unfold Tracker.insertDescriptor
      rw [hod]
      simp only [if_neg hne]
    set t2 : Tracker :=
      Tracker.clearKeychain { t with descriptors := ainsertReplace t.descriptors k d } k
      with ht2
    have hd2 : alookup t2.descriptors k = some d := by
      rw [ht2]
      show alookup (ainsertReplace t.descriptors k d) k = some d
      rw [alookup_ainsertReplace]
      simp
    have hvac2 : ∀ i ∈ List.range (n + t.lookahead + 1),
        alookup t2.derivedSpks (k, i) = none := by
      intro i _
      rw [ht2, clearKeychain_fwd]
      simp
    obtain ⟨e1, e2, e3, e4, e5⟩ :=
      deriveRangeLoop_vacant ctx k d (List.range (n + t.lookahead + 1)) t2
        hd2 hvac2 (List.nodup_range _)
    refine ⟨?_, ?_, ?_, ?_⟩
    · rw [hins, e1]
      rfl
    · intro i
      rw [hins, e3 (k, i)]
      by_cases hi : i < n + t.lookahead + 1
      · simp [List.mem_range, hi]
      · have : ¬ (i ∈ List.range (n + t.lookahead + 1)) := by
          simpa [List.mem_range] using hi
        simp only [this, and_false, if_false, ht2, hi, if_neg]
        rw [clearKeychain_fwd]
        simp
    · rw [hins]
      have hflt := (e4.filter (fun e => decide (e.1.1 = k))).length_eq
      rw [hflt]
      rw [List.filter_append]
      have hnew : (List.map (fun i => ((k, i), ctx.hspk d i, ctx.derive d i))
          (List.range (n + t.lookahead + 1))).filter (fun e => decide (e.1.1 = k)) =
          List.map (fun i => ((k, i), ctx.hspk d i, ctx.derive d i))
            (List.range (n + t.lookahead + 1)) := by
        rw [List.filter_eq_self]
        intro a ha
        rcases List.mem_map.1 ha with ⟨i, _, rfl⟩
        simp
      have hold : t2.derivedSpks.filter (fun e => decide (e.1.1 = k)) = [] := by
        rw [List.filter_eq_nil_iff]
        intro a ha
        rw [ht2] at ha
        have := List.of_mem_filter ha
        simpa using this
      rw [hnew, hold]
      simp
    · intro h0 hh0
      rw [hins, e5]
      have hclr : alookup t2.derivedSpksRev h0 = none := by
        rw [ht2, clearKeychain_rev _ _ (by simpa using hrevn)]
        have : h0 ∈ Tracker.hashesOf { t with descriptors := ainsertReplace t.descriptors k d } k := by
          simpa [Tracker.hashesOf] using hh0
        simp [this]
      rw [show (List.range (n + t.lookahead + 1)).foldl
            (fun r i => ainsertReplace r (ctx.hspk d i) (k, i)) t2.derivedSpksRev =
          (List.range (n + t.lookahead + 1)).foldl
            (fun acc c => ainsertReplace acc ((fun i => ctx.hspk d i) c) ((fun i => ((k, i) : KC × Nat)) c))
            t2.derivedSpksRev from rfl]
      rw [alookup_foldl_ainsert_ne]
      · exact hclr
      · intro i hi hcontra
        exact hfresh i (by simpa [List.mem_range] using hi) (hcontra ▸ hh0)
  · intro hnone hvac
    have hins : Tracker.insertDescriptor ctx t k d n =
        Tracker.deriveRangeLoop ctx
          { t with descriptors := ainsertReplace t.descriptors k d } k
          (List.range (n + t.lookahead + 1)) := by
      unfold Tracker.insertDescriptor
      rw [hnone]
    have hd1 : alookup ({ t with descriptors := ainsertReplace t.descriptors k d } : Tracker).descriptors k = some d := by
      show alookup (ainsertReplace t.descriptors k d) k = some d
      rw [alookup_ainsertReplace]
      simp
    obtain ⟨e1, _, _, _, _⟩ :=
      deriveRangeLoop_vacant ctx k d (List.range (n + t.lookahead + 1))
        { t with descriptors := ainsertReplace t.descriptors k d }
        hd1 (fun i _ => hvac i) (List.nodup_range _)
    rw [hins, e1]
    rfl

/-- Witness for C5: replacing descriptor 7 by descriptor 8 on a
lookahead-0 tracker returns exactly the one newly derived pair. -/
theorem c5_insert_descriptor_semantics_witness :
    (Tracker.insertDescriptor ctxLin c5Tracker 0 ⟨8⟩ 0).2 =
      rangePairs ctxLin ⟨8⟩ (0 + c5Tracker.lookahead + 1) :=
  ((c5_insert_descriptor_semantics ctxLin c5Tracker 0 ⟨8⟩ 0).2.1 ⟨7⟩
    (by decide) (by decide) (by decide)
    (by
      intro i hi
      have hz : i = 0 := by
        have : c5Tracker.lookahead = 0 := by decide
        omega
      subst hz
      decide)).1

/-! ### Reverse-map invariant development (C8) -/

theorem keys_insertSorted_perm {β : Type} (k : KC × Nat) (v : β)
    (l : List ((KC × Nat) × β)) :
    ((insertSorted k v l).map (·.1)).Perm (k :: l.map (·.1)) := by
  simpa using (insertSorted_perm k v l).map (·.1)

theorem mem_insertSorted {β : Type} {k : KC × Nat} {v : β}
    {l : List ((KC × Nat) × β)} {e : (KC × Nat) × β} :
    e ∈ insertSorted k v l ↔ e = (k, v) ∨ e ∈ l := by
  rw [(insertSorted_perm k v l).mem_iff]
  simp

theorem mem_aerase_of_nodup {α β : Type} [DecidableEq α]
    {l : List (α × β)} (hn : (l.map (·.1)).Nodup) {k : α} {e : α × β}
    (he : e ∈ aerase l k) : e ∈ l ∧ e.1 ≠ k := by
  induction l with
  | nil => simp [aerase] at he
  | cons hd tl ih =>
    obtain ⟨a, b⟩ := hd
    simp only [List.map_cons, List.nodup_cons] at hn
    by_cases ha : a = k
    · subst ha
      simp only [aerase, if_pos rfl] at he
      refine ⟨List.mem_cons_of_mem _ he, ?_⟩
      intro hek
      exact hn.1 (hek ▸ List.mem_map_of_mem (·.1) he)
    · simp only [aerase, ha, if_false, List.mem_cons] at he
      rcases he with rfl | he
      · exact ⟨List.mem_cons_self _ _, ha⟩
      · rcases ih hn.2 he with ⟨h1, h2⟩
        exact ⟨List.mem_cons_of_mem _ h1, h2⟩

theorem keysNodup_foldl_aerase {α β : Type} [DecidableEq α]
    (ks : List α) (r : List (α × β)) (hn : (r.map (·.1)).Nodup) :
    (((ks.foldl (fun acc k' => aerase acc k') r)).map (·.1)).Nodup := by
  induction ks generalizing r with
  | nil => simpa using hn
  | cons k kt ih =>
    simp only [List.foldl_cons]
    exact ih _ (hn.sublist (List.Sublist.map _ (aerase_sublist r k)))

theorem mem_foldl_aerase {α β : Type} [DecidableEq α]
    (ks : List α) (r : List (α × β)) (hn : (r.map (·.1)).Nodup) {e : α × β}
    (he : e ∈ ks.foldl (fun acc k' => aerase acc k') r) : e ∈ r ∧ e.1 ∉ ks := by
  induction ks generalizing r with
  | nil => simpa using he
  | cons k kt ih =>
    simp only [List.foldl_cons] at he
    have hn' : ((aerase r k).map (·.1)).Nodup :=
      hn.sublist (List.Sublist.map _ (aerase_sublist r k))
    rcases ih _ hn' he with ⟨h1, h2⟩
    rcases mem_aerase_of_nodup hn h1 with ⟨h3, h4⟩
    refine ⟨h3, ?_⟩
    intro hk
    rcases List.mem_cons.1 hk with hk | hk
    · exact h4 hk
    · exact h2 hk

theorem mem_entry_eq_of_nodup {α β : Type} [DecidableEq α]
    {l : List (α × β)} (hn : (l.map (·.1)).Nodup) {e1 e2 : α × β}
    (h1 : e1 ∈ l) (h2 : e2 ∈ l) (hk : e1.1 = e2.1) : e1 = e2 := by
  have q1 := alookup_of_mem_nodup hn h1
  have q2 := alookup_of_mem_nodup hn h2
  rw [hk] at q1
  rw [q2] at q1
  obtain ⟨a1, b1⟩ := e1
  obtain ⟨a2, b2⟩ := e2
  simp only at hk
  rcases Option.some.inj q1 with rfl
  simp [hk]

theorem mem_hashesOf {t : Tracker} {k : KC} {h : HashV} :
    h ∈ t.hashesOf k ↔ ∃ e ∈ t.derivedSpks, e.1.1 = k ∧ e.2.1 = h := by
  unfold Tracker.hashesOf
  constructor
  · intro hh
    rcases List.mem_map.1 hh with ⟨e, he, rfl⟩
    have := List.of_mem_filter he
    exact ⟨e, List.mem_of_mem_filter he, by simpa using this, rfl⟩
  · rintro ⟨e, he, hk, rfl⟩
    exact List.mem_map_of_mem _ (List.mem_filter.2 ⟨he, by simpa using hk⟩)

theorem addDerivedSpk_tinv (ctx : DeriveCtx)
    (hinj : ∀ d1 i1 d2 i2, ctx.hspk d1 i1 = ctx.hspk d2 i2 → d1 = d2 ∧ i1 = i2)
    {t : Tracker} (hI : TInv ctx t) (k : KC) (i : Nat) :
    TInv ctx (Tracker.addDerivedSpk ctx t k i).1 := by
  unfold Tracker.addDerivedSpk
  rcases hfv : alookup t.derivedSpks (k, i) with _ | v
  · rcases hdk : alookup t.descriptors k with _ | d
    · exact hI
    · refine ⟨?_, ?_, ?_, ?_, ?_, ?_⟩
      · show ((insertSorted (k, i) (ctx.hashFn (ctx.derive d i), ctx.derive d i)
            t.derivedSpks).map (·.1)).Nodup
        rw [(keys_insertSorted_perm _ _ _).nodup_iff]
        refine List.nodup_cons.2 ⟨?_, hI.fwdNodup⟩
        intro hmem
        rcases List.mem_map.1 hmem with ⟨e, he, hek⟩
        exact (alookup_eq_none t.derivedSpks (k, i)).1 hfv e he hek
      · exact keysNodup_ainsertReplace hI.revNodup _ _
      · exact hI.descInjA
      · intro e he
        rcases mem_insertSorted.1 he with rfl | he'
        · exact ⟨d, hdk, rfl, rfl⟩
        · exact hI.fwdSrc e he'
      · intro e he
        rcases mem_insertSorted.1 he with rfl | he'
        · show alookup (ainsertReplace t.derivedSpksRev
              (ctx.hashFn (ctx.derive d i)) (k, i)) (ctx.hashFn (ctx.derive d i)) = _
          rw [alookup_ainsertReplace, if_pos rfl]
        · show alookup (ainsertReplace t.derivedSpksRev
              (ctx.hashFn (ctx.derive d i)) (k, i)) e.2.1 = some e.1
          rw [alookup_ainsertReplace]
          have hne : ¬ (ctx.hashFn (ctx.derive d i) = e.2.1) := by
            intro heq
            rcases hI.fwdSrc e he' with ⟨de, hde, hsp, hh⟩
            have hhe : e.2.1 = ctx.hspk de e.1.2 := by
              rw [hh, hsp]
              rfl
            have hinj' := hinj d i de e.1.2 (by rw [hhe] at heq; exact heq)
            rcases hinj' with ⟨rfl, hieq⟩
            have hkk : k = e.1.1 := hI.descInjA k e.1.1 d hdk hde
            have hkey : e.1 = (k, i) := Prod.ext_iff.2 ⟨hkk.symm, hieq.symm⟩
            exact alookup_isSome_of_mem he' (hkey ▸ hfv)
          rw [if_neg hne]
          exact hI.fwdRev e he'
      · intro e he
        rcases mem_ainsertReplace he with rfl | he'
        · refine ⟨ctx.derive d i, ?_⟩
          show alookup (insertSorted (k, i) _ t.derivedSpks) (k, i) = _
          rw [alookup_insertSorted, if_pos rfl]
        · rcases hI.revFwd e he' with ⟨spk', hsp'⟩
          refine ⟨spk', ?_⟩
          show alookup (insertSorted (k, i) _ t.derivedSpks) e.2 = _
          rw [alookup_insertSorted]
          have hne : ¬ ((k, i) = e.2) := by
            intro heq
            rw [← heq] at hsp'
            rw [hfv] at hsp'
            exact Option.noConfusion hsp'
          rw [if_neg hne]
          exact hsp'
  · exact hI

theorem deriveRangeLoop_tinv (ctx : DeriveCtx)
    (hinj : ∀ d1 i1 d2 i2, ctx.hspk d1 i1 = ctx.hspk d2 i2 → d1 = d2 ∧ i1 = i2)
    (k : KC) :
    ∀ (is : List Nat) (t : Tracker), TInv ctx t →
    TInv ctx (Tracker.deriveRangeLoop ctx t k is).1 := by
  intro is
  induction is with
  | nil =>
    intro t hI
    simpa [Tracker.deriveRangeLoop] using hI
  | cons i rest ih =>
    intro t hI
    have h2 := ih _ (addDerivedSpk_tinv ctx hinj hI k i)
    simpa [Tracker.deriveRangeLoop] using h2

theorem markUsedLoop_tinv (ctx : DeriveCtx)
    (hinj : ∀ d1 i1 d2 i2, ctx.hspk d1 i1 = ctx.hspk d2 i2 → d1 = d2 ∧ i1 = i2)
    (k : KC) :
    ∀ (is : List Nat) (t : Tracker), TInv ctx t →
    TInv ctx (Tracker.markUsedLoop ctx t k is).1 := by
  intro is
  induction is with
  | nil =>
    intro t hI
    simpa [Tracker.markUsedLoop] using hI
  | cons i rest ih =>
    intro t hI
    have h1 := addDerivedSpk_tinv ctx hinj hI k i
    rcases h2 : (Tracker.addDerivedSpk ctx t k i).2 with _ | p
    · simpa [Tracker.markUsedLoop, h2] using h1
    · simpa [Tracker.markUsedLoop, h2] using ih _ h1

theorem markUsed_tinv (ctx : DeriveCtx)
    (hinj : ∀ d1 i1 d2 i2, ctx.hspk d1 i1 = ctx.hspk d2 i2 → d1 = d2 ∧ i1 = i2)
    {t : Tracker} (hI : TInv ctx t) (k : KC) (i : Nat) :
    TInv ctx (Tracker.markUsedAndDeriveNew ctx t k i).1 :=
  markUsedLoop_tinv ctx hinj k _ t hI

theorem descInjA_replace (ctx : DeriveCtx) {t : Tracker} (hI : TInv ctx t)
    (k : KC) (d : Descr)
    (hnd : ∀ k' d', k' ≠ k → alookup t.descriptors k' = some d' → d' ≠ d) :
    ∀ k1 k2 d0, alookup (ainsertReplace t.descriptors k d) k1 = some d0 →
      alookup (ainsertReplace t.descriptors k d) k2 = some d0 → k1 = k2 := by
  intro k1 k2 d0 h1 h2
  rw [alookup_ainsertReplace] at h1 h2
  by_cases e1 : k = k1 <;> by_cases e2 : k = k2
  · rw [← e1, ← e2]
  · rw [if_pos e1] at h1
    rw [if_neg e2] at h2
    rcases Option.some.inj h1 with rfl
    exact absurd rfl (hnd k2 d (fun hh => e2 hh.symm) h2)
  · rw [if_neg e1] at h1
    rw [if_pos e2] at h2
    rcases Option.some.inj h2 with rfl
    exact absurd rfl (hnd k1 d (fun hh => e1 hh.symm) h1)
  · rw [if_neg e1] at h1
    rw [if_neg e2] at h2
    exact hI.descInjA k1 k2 d0 h1 h2

theorem freshReplace_tinv (ctx : DeriveCtx) {t : Tracker} (hI : TInv ctx t)
    (k : KC) (d : Descr)
    (hod : alookup t.descriptors k = none)
    (hnd : ∀ k' d', k' ≠ k → alookup t.descriptors k' = some d' → d' ≠ d) :
    TInv ctx { t with descriptors := ainsertReplace t.descriptors k d } := by
  refine ⟨hI.fwdNodup, hI.revNodup, descInjA_replace ctx hI k d hnd, ?_, hI.fwdRev, hI.revFwd⟩
  intro e he
  rcases hI.fwdSrc e he with ⟨de, hde, hsp, hh⟩
  have hek : ¬ (k = e.1.1) := by
    intro hk
    rw [← hk, hod] at hde
    exact Option.noConfusion hde
  refine ⟨de, ?_, hsp, hh⟩
  show alookup (ainsertReplace t.descriptors k d) e.1.1 = some de
  rw [alookup_ainsertReplace, if_neg hek]
  exact hde

theorem clearReplace_tinv (ctx : DeriveCtx)
    (hinj : ∀ d1 i1 d2 i2, ctx.hspk d1 i1 = ctx.hspk d2 i2 → d1 = d2 ∧ i1 = i2)
    {t : Tracker} (hI : TInv ctx t) (k : KC) (d : Descr)
    (hnd : ∀ k' d', k' ≠ k → alookup t.descriptors k' = some d' → d' ≠ d) :
    TInv ctx (Tracker.clearKeychain
      { t with descriptors := ainsertReplace t.descriptors k d } k) := by
  have hmemfwd : ∀ e, e ∈ (Tracker.clearKeychain
      { t with descriptors := ainsertReplace t.descriptors k d } k).derivedSpks →
      e ∈ t.derivedSpks ∧ ¬ e.1.1 = k := by
    intro e he
    have h1 : e ∈ t.derivedSpks.filter (fun e => ¬ e.1.1 = k) := he
    exact ⟨List.mem_of_mem_filter h1, by simpa using List.of_mem_filter h1⟩
  have hnotin : ∀ e ∈ t.derivedSpks, ¬ e.1.1 = k →
      e.2.1 ∉ Tracker.hashesOf t k := by
    intro e he hek hmem
    rcases mem_hashesOf.1 hmem with ⟨e', he', hk', hh'⟩
    rcases hI.fwdSrc e he with ⟨de, hde, hsp, hh⟩
    rcases hI.fwdSrc e' he' with ⟨de', hde', hsp', hh2⟩
    have hhe : e.2.1 = ctx.hspk de e.1.2 := by rw [hh, hsp]; rfl
    have hhe' : e'.2.1 = ctx.hspk de' e'.1.2 := by rw [hh2, hsp']; rfl
    have heq : ctx.hspk de e.1.2 = ctx.hspk de' e'.1.2 := by
      rw [← hhe, ← hhe', hh']
    rcases hinj de e.1.2 de' e'.1.2 heq with ⟨rfl, _⟩
    have : e.1.1 = e'.1.1 := hI.descInjA e.1.1 e'.1.1 de hde hde'
    exact hek (this.trans hk')
  refine ⟨?_, ?_, ?_, ?_, ?_, ?_⟩
  · exact hI.fwdNodup.sublist (List.Sublist.map _ (List.filter_sublist _))
  · show (((t.derivedSpks.filter (fun e => e.1.1 = k)).foldl
      (fun r e => aerase r e.2.1) t.derivedSpksRev).map (·.1)).Nodup
    rw [show (t.derivedSpks.filter (fun e => e.1.1 = k)).foldl
          (fun r e => aerase r e.2.1) t.derivedSpksRev =
        ((t.derivedSpks.filter (fun e => e.1.1 = k)).map (fun e => e.2.1)).foldl
          (fun r h => aerase r h) t.derivedSpksRev from (List.foldl_map _ _ _ _).symm]
    exact keysNodup_foldl_aerase _ _ hI.revNodup
  · exact descInjA_replace ctx hI k d hnd
  · intro e he
    rcases hmemfwd e he with ⟨he', hek⟩
    rcases hI.fwdSrc e he' with ⟨de, hde, hsp, hh⟩
    refine ⟨de, ?_, hsp, hh⟩
    show alookup (ainsertReplace t.descriptors k d) e.1.1 = some de
    rw [alookup_ainsertReplace, if_neg (fun hk => hek hk.symm)]
    exact hde
  · intro e he
    rcases hmemfwd e he with ⟨he', hek⟩
    show alookup (Tracker.clearKeychain
      { t with descriptors := ainsertReplace t.descriptors k d } k).derivedSpksRev e.2.1 =
      some e.1
    rw [clearKeychain_rev _ _ (by exact hI.revNodup)]
    have hni : e.2.1 ∉ Tracker.hashesOf
        { t with descriptors := ainsertReplace t.descriptors k d } k := by
      have := hnotin e he' hek
      simpa [Tracker.hashesOf] using this
    rw [if_neg hni]
    exact hI.fwdRev e he'
  · intro e he
    have he2 : e ∈ ((t.derivedSpks.filter (fun e => e.1.1 = k)).map
        (fun e => e.2.1)).foldl (fun r h => aerase r h) t.derivedSpksRev := by
      have h0 : e ∈ (t.derivedSpks.filter (fun e => e.1.1 = k)).foldl
          (fun r e => aerase r e.2.1) t.derivedSpksRev := he
      rw [show (t.derivedSpks.filter (fun e => e.1.1 = k)).foldl
            (fun r e => aerase r e.2.1) t.derivedSpksRev =
          ((t.derivedSpks.filter (fun e => e.1.1 = k)).map (fun e => e.2.1)).foldl
            (fun r h => aerase r h) t.derivedSpksRev from (List.foldl_map _ _ _ _).symm] at h0
      exact h0
    rcases mem_foldl_aerase _ _ hI.revNodup he2 with ⟨hrev, hnh⟩
    rcases hI.revFwd e hrev with ⟨spk', hsp'⟩
    refine ⟨spk', ?_⟩
    show alookup (Tracker.clearKeychain
      { t with descriptors := ainsertReplace t.descriptors k d } k).derivedSpks e.2 =
      some (e.1, spk')
    rw [clearKeychain_fwd]
    have hek : ¬ (e.2.1 = k) := by
      intro hk
      apply hnh
      have hmem : (e.2, (e.1, spk')) ∈ t.derivedSpks := alookup_mem hsp'
      have : (e.2, (e.1, spk')) ∈ t.derivedSpks.filter (fun e => e.1.1 = k) :=
        List.mem_filter.2 ⟨hmem, by simpa using hk⟩
      exact List.mem_map_of_mem _ this
    rw [if_neg hek]
    exact hsp'

theorem insertDescriptor_tinv (ctx : DeriveCtx)
    (hinj : ∀ d1 i1 d2 i2, ctx.hspk d1 i1 = ctx.hspk d2 i2 → d1 = d2 ∧ i1 = i2)
    {t : Tracker} (hI : TInv ctx t) (k : KC) (d : Descr) (n : Nat)
    (hnd : ∀ k' d', k' ≠ k → alookup t.descriptors k' = some d' → d' ≠ d) :
    TInv ctx (Tracker.insertDescriptor ctx t k d n).1 := by
  unfold Tracker.insertDescriptor
  rcases hod : alookup t.descriptors k with _ | od
  · exact deriveRangeLoop_tinv ctx hinj k _ _ (freshReplace_tinv ctx hI k d hod hnd)
  · dsimp only
    by_cases heq : od = d
    · subst heq
      rw [if_pos rfl, ainsertReplace_self _ _ _ hod]
      exact hI
    · rw [if_neg heq]
      exact deriveRangeLoop_tinv ctx hinj k _ _ (clearReplace_tinv ctx hinj hI k d hnd)

theorem alookup_key_mem {α β : Type} [DecidableEq α]
    {l : List (α × β)} {k : α} {v : β} (h : alookup l k = some v) :
    k ∈ l.map (·.1) :=
  List.mem_map_of_mem (·.1) (alookup_mem h)

theorem tinv_revOk (ctx : DeriveCtx) {t : Tracker} (hI : TInv ctx t) : RevOk t := by
  refine ⟨?_, hI.revFwd, ?_⟩
  · intro e he
    exact hI.fwdRev e he
  · have hfn : t.derivedSpks.Nodup := hI.fwdNodup.of_map
    have hhn : (t.derivedSpks.map (fun e => e.2.1)).Nodup := by
      refine List.Nodup.map_on ?_ hfn
      intro e1 h1 e2 h2 hh
      have q1 := hI.fwdRev e1 h1
      have q2 := hI.fwdRev e2 h2
      rw [hh, q2] at q1
      exact mem_entry_eq_of_nodup hI.fwdNodup h1 h2 (Option.some.inj q1).symm
    have hsub1 : ∀ x ∈ t.derivedSpks.map (fun e => e.2.1),
        x ∈ t.derivedSpksRev.map (·.1) := by
      intro x hx
      rcases List.mem_map.1 hx with ⟨e, he, rfl⟩
      exact alookup_key_mem (hI.fwdRev e he)
    have hsub2 : ∀ x ∈ t.derivedSpksRev.map (·.1),
        x ∈ t.derivedSpks.map (fun e => e.2.1) := by
      intro x hx
      rcases List.mem_map.1 hx with ⟨e, he, rfl⟩
      rcases hI.revFwd e he with ⟨spk', hsp'⟩
      have := alookup_mem hsp'
      exact List.mem_map.2 ⟨(e.2, (e.1, spk')), this, rfl⟩
    have hset : (t.derivedSpks.map (fun e => e.2.1)).toFinset =
        (t.derivedSpksRev.map (·.1)).toFinset := by
      apply Finset.ext
      intro x
      simp only [List.mem_toFinset]
      exact ⟨hsub1 x, hsub2 x⟩
    have hl1 := List.toFinset_card_of_nodup hhn
    have hl2 := List.toFinset_card_of_nodup hI.revNodup
    have : (t.derivedSpks.map (fun e => e.2.1)).length =
        (t.derivedSpksRev.map (·.1)).length := by
      rw [← hl1, ← hl2, hset]
    simpa using this

/-- **C8** (amended).  Provided the composite hash-of-derived-script map
`(descriptor, index) ↦ scripthash` is injective and no two keychains are
given descriptors deriving a common script, the tracker's reverse-lookup
consistency `RevOk` (forward entries reverse-resolve to their own
`(keychain, index)`, reverse entries have matching forward entries, equal
cardinalities) holds at `new` and is preserved by `insert_descriptor` and
`mark_used_and_derive_new` through the invariant `TInv`. -/
theorem c8_rev_consistency_amended (ctx : DeriveCtx)
    (hinj : ∀ d1 i1 d2 i2, ctx.hspk d1 i1 = ctx.hspk d2 i2 → d1 = d2 ∧ i1 = i2) :
    (∀ L, TInv ctx (Tracker.new L)) ∧
    (∀ t k d n, TInv ctx t →
      (∀ k' d', k' ≠ k → alookup t.descriptors k' = some d' → d' ≠ d) →
      TInv ctx (Tracker.insertDescriptor ctx t k d n).1) ∧
    (∀ t k i, TInv ctx t → TInv ctx (Tracker.markUsedAndDeriveNew ctx t k i).1) ∧
    (∀ t, TInv ctx t → RevOk t) := by
  refine ⟨?_, ?_, ?_, ?_⟩
  · intro L
    refine ⟨?_, ?_, ?_, ?_, ?_, ?_⟩ <;> simp [Tracker.new, alookup]
  · exact fun t k d n hI hnd => insertDescriptor_tinv ctx hinj hI k d n hnd
  · exact fun t k i hI => markUsed_tinv ctx hinj hI k i
  · exact fun t hI => tinv_revOk ctx hI

/-- Witness for C8 (amended): with the injective pairing context, the
tracker reached by inserting one descriptor and marking index 0 used is
reverse-lookup consistent. -/
theorem c8_rev_consistency_amended_witness :
    RevOk (Tracker.markUsedAndDeriveNew ctxPair
      (Tracker.insertDescriptor ctxPair (Tracker.new 1) 0 ⟨3⟩ 0).1 0 0).1 := by
  have hinj : ∀ d1 i1 d2 i2, ctxPair.hspk d1 i1 = ctxPair.hspk d2 i2 →
      d1 = d2 ∧ i1 = i2 := by
    intro d1 i1 d2 i2 hh
    have hp : Nat.pair d1.code i1 = Nat.pair d2.code i2 := hh
    rw [Nat.pair_eq_pair] at hp
    obtain ⟨h1, h2⟩ := hp
    refine ⟨?_, h2⟩
    cases d1
    cases d2
    simpa using h1
  have hc := c8_rev_consistency_amended ctxPair hinj
  refine hc.2.2.2 _ (hc.2.2.1 _ 0 0 (hc.2.1 _ 0 ⟨3⟩ 0 (hc.1 1) ?_))
  intro k' d' hk habs
  simp [Tracker.new, alookup] at habs

/-- **C8** (counterexample).  Inserting the same descriptor for two
keychains (lookahead 0) is a reachable state in which both keychains
derive scripthash 700; the reverse map holds only `(1, 0)` for it, so the
forward entry `((0, 0), (700, 700))` has no matching reverse lookup and
the two maps have different cardinalities. -/
theorem c8_counterexample :
    alookup c8Tracker.derivedSpks (0, 0) = some (700, 700) ∧
    c8Tracker.indexOfSpkHash 700 = some (1, 0) ∧
    revOkB c8Tracker = false := by decide

/-- **C9** (counterexample).  The all-uppercase hex string `"AA…A"` (64
chars) parses successfully (hex-decode accepts both cases), but
re-encoding the parsed scripthash yields the lowercase `"aa…a"`, not the
identical string. -/
theorem c9_counterexample :
    parseNotificationHash c9UpperStr = some (List.replicate 32 170) ∧
    encodeScripthashHex (List.replicate 32 170) = c9LowerStr ∧
    c9LowerStr ≠ c9UpperStr := by decide

end BdkStream
